import Mathlib

/-!
# Verification of the occi-py core library

A shallow embedding of the occi-py OCCI (Open Cloud Computing Interface)
implementation: the attribute type system, the Category/Kind/Mixin model,
the `CategoryRegistry`, the `Entity` attribute validation engine
(`set_occi_attributes`), HTTP content negotiation
(`get_renderer` / Accept-header handling), the `DummyBackend` entity filter
and the `Action` parameter validation.

Python dictionaries are embedded as association lists with
insert-replaces-in-place / append-at-end semantics; Python exceptions are
embedded as `Except` results, carrying the (partially mutated) state where
mutation before the raise is observable to the caller.
-/

namespace OcciPy

/-! ## Association lists: the embedding of Python `dict` -/

/-- Python `d[k]` / `k in d`: first value bound to key `k`. -/
def alookup {κ α : Type} [DecidableEq κ] (k : κ) : List (κ × α) → Option α
  | [] => none
  | (k', v) :: rest => if k' = k then some v else alookup k rest

/-- Python `del d[k]` / `d.pop(k, None)`: remove the binding of `k` (if any). -/
def aerase {κ α : Type} [DecidableEq κ] (k : κ) : List (κ × α) → List (κ × α)
  | [] => []
  | (k', v) :: rest => if k' = k then aerase k rest else (k', v) :: aerase k rest

/-- Python `d[k] = v`: replace in place when the key exists, else append. -/
def ainsert {κ α : Type} [DecidableEq κ] (k : κ) (v : α) : List (κ × α) → List (κ × α)
  | [] => [(k, v)]
  | (k', v') :: rest => if k' = k then (k, v) :: rest else (k', v') :: ainsert k v rest

variable {κ α : Type} [DecidableEq κ]

theorem alookup_ainsert_self (k : κ) (v : α) (l : List (κ × α)) :
    alookup k (ainsert k v l) = some v := by
  induction l with
  | nil => simp [ainsert, alookup]
  | cons p rest ih =>
    obtain ⟨k', v'⟩ := p
    by_cases h : k' = k <;> simp [ainsert, alookup, h, ih]

theorem alookup_ainsert_ne (k k' : κ) (v : α) (l : List (κ × α)) (h : k' ≠ k) :
    alookup k (ainsert k' v l) = alookup k l := by
  induction l with
  | nil => simp [ainsert, alookup, h]
  | cons p rest ih =>
    obtain ⟨k₀, v₀⟩ := p
    by_cases h0 : k₀ = k'
    · subst h0; simp [ainsert, alookup, h]
    · by_cases h1 : k₀ = k <;> simp [ainsert, alookup, h0, h1, Ne.symm h, ih]

theorem alookup_aerase_self (k : κ) (l : List (κ × α)) :
    alookup k (aerase k l) = none := by
  induction l with
  | nil => simp [aerase, alookup]
  | cons p rest ih =>
    obtain ⟨k₀, v₀⟩ := p
    by_cases h : k₀ = k <;> simp [aerase, alookup, h, ih]

theorem alookup_aerase_ne (k k' : κ) (l : List (κ × α)) (h : k' ≠ k) :
    alookup k (aerase k' l) = alookup k l := by
  induction l with
  | nil => simp [aerase]
  | cons p rest ih =>
    obtain ⟨k₀, v₀⟩ := p
    by_cases h0 : k₀ = k'
    · subst h0; simp [aerase, alookup, h, Ne.symm h, ih]
    · by_cases h1 : k₀ = k <;> simp [aerase, alookup, h0, h1, Ne.symm h, ih]

theorem alookup_append (k : κ) (l₁ l₂ : List (κ × α)) :
    alookup k (l₁ ++ l₂) = match alookup k l₁ with
      | some v => some v
      | none => alookup k l₂ := by
  induction l₁ with
  | nil => simp [alookup]
  | cons p rest ih =>
    obtain ⟨k₀, v₀⟩ := p
    by_cases h : k₀ = k <;> simp [alookup, h, ih]

theorem alookup_isSome_of_mem {k : κ} {v : α} {l : List (κ × α)} (h : (k, v) ∈ l) :
    (alookup k l).isSome := by
  induction l with
  | nil => simp at h
  | cons p rest ih =>
    obtain ⟨k₀, v₀⟩ := p
    rcases List.mem_cons.mp h with h | h
    · injection h with h1 h2; subst h1; simp [alookup]
    · by_cases h0 : k₀ = k <;> simp [alookup, h0, ih h]

theorem alookup_eq_of_mem_nodup {k : κ} {v : α} {l : List (κ × α)}
    (h : (k, v) ∈ l) (hnd : (l.map Prod.fst).Nodup) : alookup k l = some v := by
  induction l with
  | nil => simp at h
  | cons p rest ih =>
    obtain ⟨k₀, v₀⟩ := p
    simp only [List.map_cons, List.nodup_cons] at hnd
    rcases List.mem_cons.mp h with h | h
    · injection h with h1 h2; subst h1; subst h2; simp [alookup]
    · have hk : k₀ ≠ k := by
        intro he; subst he
        exact hnd.1 (List.mem_map.mpr ⟨(k₀, v), h, rfl⟩)
      simp [alookup, hk, ih h hnd.2]

theorem mem_of_alookup_eq_some {k : κ} {v : α} {l : List (κ × α)}
    (h : alookup k l = some v) : (k, v) ∈ l := by
  induction l with
  | nil => simp [alookup] at h
  | cons p rest ih =>
    obtain ⟨k₀, v₀⟩ := p
    by_cases h0 : k₀ = k
    · subst h0; simp [alookup] at h; simp [h]
    · simp [alookup, h0] at h
      exact List.mem_cons_of_mem _ (ih h)

/-! ## Attribute type system (src/occi/core.py lines 11-63)

Python ints are embedded as `Int`, Python floats as `Rat` (the decimal
reasoning in the spec is about decimal places, which the rational model
captures; `printf %.2f` rounds half to even, which `roundHalfEven` mirrors).
-/

/-- Decimal digit character `0`..`9`. -/
def digitChar (d : Nat) : Char := Char.ofNat (48 + d)

/-- Fuel-based helper for `natDigits` (structural recursion so the kernel
can evaluate it; fuel `n + 1` always suffices). -/
def natDigitsAux : Nat → Nat → List Char → List Char
  | 0, _, acc => acc
  | fuel + 1, n, acc =>
    if n < 10 then digitChar n :: acc
    else natDigitsAux fuel (n / 10) (digitChar (n % 10) :: acc)

/-- Decimal digit characters of a natural number, the embedding of Python
`str` on a non-negative int. -/
def natDigits (n : Nat) : List Char := natDigitsAux (n + 1) n []

/-- Numeric value of a decimal digit character. -/
def digitVal (c : Char) : Option Nat :=
  if 48 ≤ c.toNat ∧ c.toNat ≤ 57 then some (c.toNat - 48) else none

/-- Left-to-right accumulation of decimal digits. -/
def parseNatAux (a : Nat) : List Char → Option Nat
  | [] => some a
  | c :: cs =>
    match digitVal c with
    | some d => parseNatAux (a * 10 + d) cs
    | none => none

/-- Parse a non-empty all-digit string as a natural number. -/
def parseNat : List Char → Option Nat
  | [] => none
  | c :: cs => parseNatAux 0 (c :: cs)

theorem digitVal_digitChar : ∀ d < 10, digitVal (digitChar d) = some d := by decide

theorem digitChar_not_special :
    ∀ d < 10, digitChar d ≠ '-' ∧ digitChar d ≠ '+' ∧ digitChar d ≠ '.' := by decide

theorem natDigitsAux_acc (fuel : Nat) : ∀ n acc,
    natDigitsAux fuel n acc = natDigitsAux fuel n [] ++ acc := by
  induction fuel with
  | zero => intro n acc; simp [natDigitsAux]
  | succ fuel ih =>
    intro n acc
    by_cases h : n < 10
    · simp [natDigitsAux, h]
    · simp only [natDigitsAux, h, if_false]
      rw [ih (n / 10) (digitChar (n % 10) :: acc), ih (n / 10) [digitChar (n % 10)]]
      simp

theorem natDigitsAux_fuel : ∀ f₁ f₂ n, n < f₁ → n < f₂ →
    natDigitsAux f₁ n [] = natDigitsAux f₂ n [] := by
  intro f₁
  induction f₁ with
  | zero => omega
  | succ f₁ ih =>
    intro f₂ n h1 h2
    match f₂, h2 with
    | f₂ + 1, h2 =>
      by_cases h : n < 10
      · simp [natDigitsAux, h]
      · simp only [natDigitsAux, h, if_false]
        rw [natDigitsAux_acc f₁, natDigitsAux_acc f₂]
        have hd : n / 10 < n := Nat.div_lt_self (by omega) (by omega)
        rw [ih f₂ (n / 10) (by omega) (by omega)]

theorem natDigits_lt10 {n : Nat} (h : n < 10) : natDigits n = [digitChar n] := by
  simp [natDigits, natDigitsAux, h]

theorem natDigits_ge10 {n : Nat} (h : 10 ≤ n) :
    natDigits n = natDigits (n / 10) ++ [digitChar (n % 10)] := by
  have h10 : ¬ n < 10 := by omega
  have hd : n / 10 < n := Nat.div_lt_self (by omega) (by omega)
  have e1 : natDigits n = natDigitsAux n (n / 10) [digitChar (n % 10)] := by
    simp only [natDigits, natDigitsAux, h10, if_false]
  rw [e1, natDigitsAux_acc n, natDigitsAux_fuel n (n / 10 + 1) (n / 10) hd (Nat.lt_succ_self _)]
  rfl

theorem natDigits_ne_nil (n : Nat) : natDigits n ≠ [] := by
  by_cases h : n < 10
  · simp [natDigits_lt10 h]
  · simp [natDigits_ge10 (by omega : 10 ≤ n)]

theorem mem_natDigits : ∀ n c, c ∈ natDigits n → ∃ d, d < 10 ∧ c = digitChar d := by
  intro n
  induction n using Nat.strong_induction_on with
  | _ n ih =>
    intro c hc
    by_cases h : n < 10
    · rw [natDigits_lt10 h] at hc
      simp at hc
      exact ⟨n, h, hc⟩
    · rw [natDigits_ge10 (by omega)] at hc
      rcases List.mem_append.mp hc with hm | hm
      · exact ih (n / 10) (Nat.div_lt_self (by omega) (by omega)) c hm
      · simp at hm
        exact ⟨n % 10, Nat.mod_lt _ (by omega), hm⟩

theorem parseNatAux_append (l₁ : List Char) : ∀ l₂ a,
    parseNatAux a (l₁ ++ l₂) = match parseNatAux a l₁ with
      | some m => parseNatAux m l₂
      | none => none := by
  induction l₁ with
  | nil => intro l₂ a; simp [parseNatAux]
  | cons c cs ih =>
    intro l₂ a
    simp only [List.cons_append, parseNatAux]
    match digitVal c with
    | some d => exact ih l₂ (a * 10 + d)
    | none => rfl

theorem parseNatAux_natDigits : ∀ n a,
    parseNatAux a (natDigits n) = some (a * 10 ^ (natDigits n).length + n) := by
  intro n
  induction n using Nat.strong_induction_on with
  | _ n ih =>
    intro a
    by_cases h : n < 10
    · rw [natDigits_lt10 h]
      simp [parseNatAux, digitVal_digitChar n h]
    · rw [natDigits_ge10 (by omega)]
      rw [parseNatAux_append]
      rw [ih (n / 10) (Nat.div_lt_self (by omega) (by omega)) a]
      have hm : n % 10 < 10 := Nat.mod_lt _ (by omega)
      simp only [parseNatAux, digitVal_digitChar _ hm]
      have hlen : (natDigits (n / 10) ++ [digitChar (n % 10)]).length
          = (natDigits (n / 10)).length + 1 := by simp
      rw [hlen, pow_succ]
      congr 1
      have h2 := Nat.div_add_mod n 10
      generalize (10 : Nat) ^ (natDigits (n / 10)).length = P
      calc (a * P + n / 10) * 10 + n % 10
          = a * (P * 10) + (10 * (n / 10) + n % 10) := by ring
        _ = a * (P * 10) + n := by rw [h2]

theorem parseNat_natDigits (n : Nat) : parseNat (natDigits n) = some n := by
  have hne := natDigits_ne_nil n
  match hd : natDigits n with
  | [] => exact absurd hd hne
  | c :: cs =>
    have := parseNatAux_natDigits n 0
    rw [hd] at this
    simpa [parseNat] using this

/-- Python `str` on an int: embedding of the default `Attribute.to_string`
for `IntAttribute` values. -/
def intToChars (v : Int) : List Char :=
  if v < 0 then '-' :: natDigits v.natAbs else natDigits v.natAbs

/-- Python `int(s)`: embedding of `IntAttribute.from_string` for an optional
sign followed by decimal digits. -/
def parseIntChars : List Char → Option Int
  | [] => none
  | c :: rest =>
    if c = '-' then (parseNat rest).map (fun n => -(Int.ofNat n))
    else if c = '+' then (parseNat rest).map Int.ofNat
    else (parseNat (c :: rest)).map Int.ofNat

/-- `IntAttribute.to_string`. -/
def intToString (v : Int) : String := String.mk (intToChars v)

/-- `IntAttribute.from_string` (`none` plays the role of the raised
`Attribute.Invalid`). -/
def intFromString (s : String) : Option Int := parseIntChars s.toList

/-- `BoolAttribute.to_string`: renders `y` / `n`. -/
def boolToString (b : Bool) : String := if b then "y" else "n"

/-- `BoolAttribute.from_string`: accepts only the literals `y` / `n`. -/
def boolFromString (s : String) : Option Bool :=
  if s = "y" then some true else if s = "n" then some false else none

/-- Round to the nearest integer, ties to the even integer: the rounding
performed by `printf %.2f` on the scaled value. -/
def roundHalfEven (q : Rat) : Int :=
  if q - ⌊q⌋ < 1 / 2 then ⌊q⌋
  else if 1 / 2 < q - ⌊q⌋ then ⌊q⌋ + 1
  else if Even ⌊q⌋ then ⌊q⌋ else ⌊q⌋ + 1

/-- Python `'%.2f' % v`: embedding of `FloatAttribute.to_string`, with the
float idealised as a rational. -/
def floatToChars (v : Rat) : List Char :=
  (if roundHalfEven (100 * v) < 0 then ['-'] else []) ++
    natDigits ((roundHalfEven (100 * v)).natAbs / 100) ++
    '.' :: [digitChar ((roundHalfEven (100 * v)).natAbs % 100 / 10),
            digitChar ((roundHalfEven (100 * v)).natAbs % 100 % 10)]

/-- Character test used to split a float literal at the decimal point. -/
def notDot (c : Char) : Bool := c ≠ '.'

/-- Integer-part or fraction-part value of a float literal; Python `float`
treats a missing part as zero. -/
def partVal : List Char → Option Nat
  | [] => some 0
  | c :: cs => parseNat (c :: cs)

/-- Unsigned part of Python `float(s)` for `digits[.digits]` forms. -/
def parseFloatMag (l : List Char) : Option Rat :=
  if (l.dropWhile notDot).isEmpty then (parseNat l).map (fun (n : Nat) => (n : Rat))
  else if (l.takeWhile notDot).isEmpty && ((l.dropWhile notDot).tail).isEmpty then none
  else
    match partVal (l.takeWhile notDot), partVal ((l.dropWhile notDot).tail) with
    | some i, some f => some ((i : Rat) + (f : Rat) / 10 ^ ((l.dropWhile notDot).tail).length)
    | _, _ => none

/-- Python `float(s)`: embedding of `FloatAttribute.from_string` for
sign/digits/point/digits forms. -/
def parseFloatChars : List Char → Option Rat
  | [] => none
  | c :: rest =>
    if c = '-' then (parseFloatMag rest).map Neg.neg
    else if c = '+' then parseFloatMag rest
    else parseFloatMag (c :: rest)

/-- `FloatAttribute.to_string`. -/
def floatToString (v : Rat) : String := String.mk (floatToChars v)

/-- `FloatAttribute.from_string`. -/
def floatFromString (s : String) : Option Rat := parseFloatChars s.toList

theorem parseIntChars_intToChars (v : Int) : parseIntChars (intToChars v) = some v := by
  by_cases hv : v < 0
  · have he : intToChars v = '-' :: natDigits v.natAbs := by simp [intToChars, hv]
    rw [he]
    have hstep : parseIntChars ('-' :: natDigits v.natAbs)
        = (parseNat (natDigits v.natAbs)).map (fun n => -(Int.ofNat n)) := rfl
    rw [hstep, parseNat_natDigits]
    simp only [Option.map_some']
    congr 1
    simp only [Int.ofNat_eq_natCast]
    omega
  · have he : intToChars v = natDigits v.natAbs := by simp [intToChars, hv]
    rw [he]
    have hne := natDigits_ne_nil v.natAbs
    match hd : natDigits v.natAbs with
    | [] => exact absurd hd hne
    | c :: cs =>
      obtain ⟨d, hd10, hc⟩ := mem_natDigits v.natAbs c (by rw [hd]; exact List.mem_cons_self _ _)
      obtain ⟨hm, hp, _⟩ := digitChar_not_special d hd10
      have h1 : c ≠ '-' := by rw [hc]; exact hm
      have h2 : c ≠ '+' := by rw [hc]; exact hp
      rw [parseIntChars, if_neg h1, if_neg h2, ← hd, parseNat_natDigits]
      simp only [Option.map_some']
      congr 1
      simp only [Int.ofNat_eq_natCast]
      omega

/-- Helper: takeWhile / dropWhile across a boundary where the predicate
first fails. -/
theorem takeWhile_dropWhile_boundary (p : Char → Bool) (x : Char) (hx : ¬ p x)
    (l₁ : List Char) (h1 : ∀ c ∈ l₁, p c) : ∀ l₂,
    (l₁ ++ x :: l₂).takeWhile p = l₁ ∧ (l₁ ++ x :: l₂).dropWhile p = x :: l₂ := by
  induction l₁ with
  | nil =>
    intro l₂
    simp [List.takeWhile, List.dropWhile, hx]
  | cons c cs ih =>
    intro l₂
    have hc : p c := h1 c (List.mem_cons_self _ _)
    have ih2 := ih (fun c hm => h1 c (List.mem_cons_of_mem _ hm)) l₂
    simp [List.takeWhile, List.dropWhile, hc, ih2.1, ih2.2]

theorem parseFloatMag_render (R : Nat) :
    parseFloatMag (natDigits (R / 100) ++
      '.' :: [digitChar (R % 100 / 10), digitChar (R % 100 % 10)]) = some ((R : Rat) / 100) := by
  have hdig : ∀ c ∈ natDigits (R / 100), notDot c := by
    intro c hc
    obtain ⟨d, hd10, hcd⟩ := mem_natDigits _ c hc
    obtain ⟨_, _, hdot⟩ := digitChar_not_special d hd10
    subst hcd
    simpa [notDot] using hdot
  have hx : ¬ notDot '.' := by simp [notDot]
  have hb := takeWhile_dropWhile_boundary notDot '.' hx _ hdig
      [digitChar (R % 100 / 10), digitChar (R % 100 % 10)]
  have hne := natDigits_ne_nil (R / 100)
  have ha : R % 100 / 10 < 10 := by omega
  have hbb : R % 100 % 10 < 10 := by omega
  have hfrac : partVal [digitChar (R % 100 / 10), digitChar (R % 100 % 10)]
      = some (R % 100) := by
    simp only [partVal, parseNat, parseNatAux, digitVal_digitChar _ ha, digitVal_digitChar _ hbb]
    congr 1
    omega
  have hip : partVal (natDigits (R / 100)) = some (R / 100) := by
    match hd : natDigits (R / 100) with
    | [] => exact absurd hd hne
    | c :: cs => rw [partVal, ← hd, parseNat_natDigits]
  have hteNe : (natDigits (R / 100)).isEmpty = false := by
    match hd : natDigits (R / 100) with
    | [] => exact absurd hd hne
    | c :: cs => rfl
  rw [parseFloatMag, hb.1, hb.2]
  simp only [List.isEmpty_cons, List.tail_cons, hteNe, Bool.false_and, if_neg Bool.false_ne_true,
    if_false, hip, hfrac]
  have hq : (100 : Rat) * ((R / 100 : Nat) : Rat) + ((R % 100 : Nat) : Rat) = (R : Rat) := by
    exact_mod_cast Nat.div_add_mod R 100
  have hlen : ([digitChar (R % 100 / 10), digitChar (R % 100 % 10)] : List Char).length = 2 := rfl
  rw [hlen]
  congr 1
  rw [show ((10 : Rat) ^ (2 : Nat)) = 100 by norm_num]
  field_simp
  linarith [hq]

theorem natAbs_rat_of_neg {r : Int} (hr : r < 0) : ((r.natAbs : Nat) : Rat) = -(r : Rat) := by
  have h1 : ((r.natAbs : Nat) : Int) = -r := by omega
  calc ((r.natAbs : Nat) : Rat) = (((r.natAbs : Nat) : Int) : Rat) := (Int.cast_natCast _).symm
    _ = ((-r : Int) : Rat) := by rw [h1]
    _ = -(r : Rat) := by push_cast; ring

theorem natAbs_rat_of_nonneg {r : Int} (hr : ¬ r < 0) : ((r.natAbs : Nat) : Rat) = (r : Rat) := by
  have h1 : ((r.natAbs : Nat) : Int) = r := by omega
  calc ((r.natAbs : Nat) : Rat) = (((r.natAbs : Nat) : Int) : Rat) := (Int.cast_natCast _).symm
    _ = (r : Rat) := by rw [h1]

theorem parseFloatChars_floatToChars (v : Rat) :
    parseFloatChars (floatToChars v) = some ((roundHalfEven (100 * v) : Rat) / 100) := by
  by_cases hr : roundHalfEven (100 * v) < 0
  · have he : floatToChars v = '-' :: (natDigits ((roundHalfEven (100 * v)).natAbs / 100) ++
        '.' :: [digitChar ((roundHalfEven (100 * v)).natAbs % 100 / 10),
                digitChar ((roundHalfEven (100 * v)).natAbs % 100 % 10)]) := by
      rw [floatToChars, if_pos hr]
      rfl
    rw [he]
    have hstep : ∀ L, parseFloatChars ('-' :: L) = (parseFloatMag L).map Neg.neg :=
      fun L => rfl
    rw [hstep, parseFloatMag_render]
    simp only [Option.map_some']
    congr 1
    rw [natAbs_rat_of_neg hr]
    ring
  · have he : floatToChars v = natDigits ((roundHalfEven (100 * v)).natAbs / 100) ++
        '.' :: [digitChar ((roundHalfEven (100 * v)).natAbs % 100 / 10),
                digitChar ((roundHalfEven (100 * v)).natAbs % 100 % 10)] := by
      rw [floatToChars, if_neg hr]
      rfl
    rw [he]
    have hne := natDigits_ne_nil ((roundHalfEven (100 * v)).natAbs / 100)
    match hd : natDigits ((roundHalfEven (100 * v)).natAbs / 100) with
    | [] => exact absurd hd hne
    | c :: cs =>
      obtain ⟨d, hd10, hc⟩ := mem_natDigits _ c (by rw [hd]; exact List.mem_cons_self _ _)
      obtain ⟨hm, hp, _⟩ := digitChar_not_special d hd10
      have h1 : c ≠ '-' := by rw [hc]; exact hm
      have h2 : c ≠ '+' := by rw [hc]; exact hp
      have hcons : (c :: cs) ++ '.' :: [digitChar ((roundHalfEven (100 * v)).natAbs % 100 / 10),
            digitChar ((roundHalfEven (100 * v)).natAbs % 100 % 10)]
          = c :: (cs ++ '.' :: [digitChar ((roundHalfEven (100 * v)).natAbs % 100 / 10),
            digitChar ((roundHalfEven (100 * v)).natAbs % 100 % 10)]) := rfl
      rw [hcons, parseFloatChars, if_neg h1, if_neg h2, ← hcons, ← hd, parseFloatMag_render]
      congr 1
      rw [natAbs_rat_of_nonneg hr]

theorem roundHalfEven_intCast (n : Int) : roundHalfEven (n : Rat) = n := by
  rw [roundHalfEven, Int.floor_intCast]
  norm_num

theorem roundHalfEven_div_eq_iff (v : Rat) :
    ((roundHalfEven (100 * v) : Rat) / 100 = v) ↔ ∃ n : Int, (100 * v : Rat) = (n : Rat) := by
  constructor
  · intro h
    refine ⟨roundHalfEven (100 * v), ?_⟩
    field_simp at h
    linarith [h]
  · rintro ⟨n, hn⟩
    rw [hn, roundHalfEven_intCast]
    field_simp
    linarith [hn]

/-! ## Category model (src/occi/core.py lines 65-241) -/

/-- Coercion class of an occi attribute definition (which `Attribute`
subclass it is). -/
inductive AttrType where
  | str
  | int
  | float
  | bool
deriving DecidableEq

/-- occi `Attribute`: a declared attribute of a Category. -/
structure Attribute where
  name : String
  required : Bool
  mutable : Bool
  atype : AttrType
deriving DecidableEq

/-- A Python-native occi attribute value (result of `from_string`). -/
inductive PyVal where
  | vStr (s : String)
  | vInt (z : Int)
  | vFloat (q : Rat)
  | vBool (b : Bool)
deriving DecidableEq

/-- `Entity.EntityError` subclasses together with the escaping
`Attribute.Invalid` (carried as `attrInvalid name value`). -/
inductive EntityErr where
  | doesNotExist (item : String)
  | unknownCategory (item : String)
  | invalidCategory (item : String)
  | unknownAttribute (item : String)
  | duplicateAttribute (item : String)
  | immutableAttribute (item : String)
  | requiredAttribute (item : String)
  | attrInvalid (name : String) (value : String)
deriving DecidableEq

/-- `isinstance` class of a category: a bare `Category`, a `Kind` or a
`Mixin` (the latter two being the `ExtCategory` subclasses). -/
inductive CatClass where
  | plain
  | kind
  | mixin
deriving DecidableEq

/-- occi `Category` / `Kind` / `Mixin`. `related` holds the identifier chain
walked by `Category.is_related` (the source stores a pointer to the parent
Category object but only identifiers along the chain are ever compared);
`attributes` holds the full inherited attribute list that
`Category.__init__` computes into `self.attributes`. `location` and
`actions` exist only on `ExtCategory` (`cls` is kind or mixin); code paths
guarded by `hasattr` ignore them for `cls = plain`. -/
inductive Category where
  | mk (term : String) (scheme : String) (cls : CatClass) (title : Option String)
      (related : List String) (attributes : List Attribute)
      (location : Option String) (actions : List Category)

def Category.term : Category → String
  | .mk t _ _ _ _ _ _ _ => t

def Category.scheme : Category → String
  | .mk _ s _ _ _ _ _ _ => s

def Category.cls : Category → CatClass
  | .mk _ _ c _ _ _ _ _ => c

def Category.title : Category → Option String
  | .mk _ _ _ t _ _ _ _ => t

def Category.related : Category → List String
  | .mk _ _ _ _ r _ _ _ => r

def Category.attributes : Category → List Attribute
  | .mk _ _ _ _ _ a _ _ => a

def Category.location : Category → Option String
  | .mk _ _ _ _ _ _ l _ => l

def Category.actions : Category → List Category
  | .mk _ _ _ _ _ _ _ a => a

/-- Python `str(category)`: `scheme + term` (`Category.__str__`). -/
def catId (c : Category) : String := c.scheme ++ c.term

/-- `hasattr(c, 'location')` / `hasattr(c, 'actions')`: true exactly for the
`ExtCategory` subclasses. -/
def isExt (c : Category) : Bool := c.cls == CatClass.kind || c.cls == CatClass.mixin

/-- `Category.is_related`: walk the `related` chain comparing identifiers
(`__cmp__` compares `str(self)`). -/
def isRelated (c target : Category) : Bool :=
  catId target == catId c || c.related.contains (catId target)

/-- `Attribute.from_string` dispatched on the attribute subclass; a parse
failure is the raised `Attribute.Invalid(name, value)`. -/
def attrFromString (a : Attribute) (s : String) : Except EntityErr PyVal :=
  match a.atype with
  | .str => .ok (.vStr s)
  | .int =>
    match intFromString s with
    | some v => .ok (.vInt v)
    | none => .error (.attrInvalid a.name s)
  | .float =>
    match floatFromString s with
    | some v => .ok (.vFloat v)
    | none => .error (.attrInvalid a.name s)
  | .bool =>
    match boolFromString s with
    | some b => .ok (.vBool b)
    | none => .error (.attrInvalid a.name s)

/-- `Attribute('title', required=False, mutable=True)` of `EntityKind`. -/
def titleAttr : Attribute := ⟨"title", false, true, AttrType.str⟩

/-- `Attribute('summary', required=False, mutable=True)` of `ResourceKind`. -/
def summaryAttr : Attribute := ⟨"summary", false, true, AttrType.str⟩

/-- `Attribute('source', required=True, mutable=False)` of `LinkKind`. -/
def sourceAttr : Attribute := ⟨"source", true, false, AttrType.str⟩

/-- `Attribute('target', required=True, mutable=True)` of `LinkKind`. -/
def targetAttr : Attribute := ⟨"target", true, true, AttrType.str⟩

/-- The built-in `EntityKind` (src/occi/core.py lines 578-584). -/
def entityKind : Category :=
  .mk "entity" "http://schemas.ogf.org/occi/core#" CatClass.kind (some "Entity type")
    [] [titleAttr] none []

/-- The built-in `ResourceKind`; its attribute list is `related.attributes`
plus its own, as computed by `Category.__init__`. -/
def resourceKind : Category :=
  .mk "resource" "http://schemas.ogf.org/occi/core#" CatClass.kind (some "Resource type")
    [catId entityKind] [titleAttr, summaryAttr] none []

/-- The built-in `LinkKind`. -/
def linkKind : Category :=
  .mk "link" "http://schemas.ogf.org/occi/core#" CatClass.kind (some "Link type")
    [catId entityKind] [titleAttr, sourceAttr, targetAttr] none []

/-! ## Entity model (src/occi/core.py lines 332-566) -/

/-- The mutable state of an occi `Entity` instance: its identifying Kind,
the attached Mixins (`_occi_mixins`), the attribute store
(`_occi_attributes`) and the available/applicable action maps. -/
structure Entity where
  kind : Category
  mixins : List (String × Category)
  attrs : List (String × PyVal)
  actionsAvailable : List (String × Category)
  actionsApplicable : List (String × Bool)

/-- `Entity._add_actions_available`. -/
def addActionsAvailable (acts : List Category) (avail : List (String × Category)) :
    List (String × Category) :=
  acts.foldl (fun av c => ainsert (catId c) c av) avail

/-- `Entity.list_occi_categories`: the Kind followed by the attached
Mixins. -/
def listOcciCategories (e : Entity) : List Category := e.kind :: e.mixins.map Prod.snd

/-- `Entity.add_occi_mixin`: only `Mixin` instances are accepted; the mixin
is stored under its identifier and its actions become available. -/
def addOcciMixin (e : Entity) (m : Category) : Except (EntityErr × Entity) Entity :=
  if m.cls = CatClass.mixin then
    .ok { e with mixins := ainsert (catId m) m e.mixins,
                 actionsAvailable := addActionsAvailable m.actions e.actionsAvailable }
  else .error (.invalidCategory (catId m), e)

/-- `Entity.remove_occi_mixin`: pop the mixin by identifier
(`UnknownCategory` when absent) and drop its actions from the available and
applicable maps (`Entity._remove_actions_available`). -/
def removeOcciMixin (e : Entity) (m : Category) : Except (EntityErr × Entity) Entity :=
  match alookup (catId m) e.mixins with
  | none => .error (.unknownCategory (catId m), e)
  | some stored =>
    let avail := stored.actions.foldl (fun av c => aerase (catId c) av) e.actionsAvailable
    let appl := stored.actions.foldl (fun ap c => aerase (catId c) ap) e.actionsApplicable
    .ok { e with mixins := aerase (catId m) e.mixins,
                 actionsAvailable := avail, actionsApplicable := appl }

/-- One step of the mixin-attachment loop in `Entity.__init__`: a raised
exception aborts the constructor. -/
def addMixinInit (acc : Except EntityErr Entity) (m : Category) : Except EntityErr Entity :=
  match acc with
  | .error err => .error err
  | .ok e =>
    match addOcciMixin e m with
    | .ok e' => .ok e'
    | .error (err, _) => .error err

/-- `Entity.__init__`: requires a `Kind` instance related to `EntityKind`,
then attaches the supplied mixins via `add_occi_mixin`. -/
def mkEntity (kind : Category) (mixins : List Category) : Except EntityErr Entity :=
  if kind.cls = CatClass.kind ∧ isRelated kind entityKind then
    mixins.foldl addMixinInit
      (.ok { kind := kind, mixins := [], attrs := [],
             actionsAvailable := addActionsAvailable kind.actions [], actionsApplicable := [] })
  else .error (.invalidCategory (catId kind))

/-- The attribute definitions of the Kind and every attached Mixin, in
category order then declaration order: the sequence the validation loop of
`Entity.set_occi_attributes` walks. -/
def declaredAttrs (e : Entity) : List Attribute :=
  (listOcciCategories e).foldr (fun c acc => c.attributes ++ acc) []

/-- First declared attribute with the given name (the declaration that pops
the input pair out of the attribute dictionary). -/
def firstDecl (e : Entity) (n : String) : Option Attribute :=
  (declaredAttrs e).find? fun a => a.name == n

/-- First phase of `Entity.set_occi_attributes`: load the supplied pairs
into a dictionary, failing with `DuplicateAttribute` on a repeated key. -/
def buildAttrDict (acc : List (String × String)) :
    List (String × String) → Except EntityErr (List (String × String))
  | [] => .ok acc
  | (k, v) :: rest =>
    if (alookup k acc).isSome then .error (.duplicateAttribute k)
    else buildAttrDict (acc ++ [(k, v)]) rest

/-- Second phase of `Entity.set_occi_attributes`: walk the declared
attributes; for an attribute present in the dictionary decide mutability
(`not validate or mutable or (required and not yet stored)`), convert and
store it or raise `ImmutableAttribute`; afterwards check the required
constraint. Errors carry the attribute store as mutated so far. -/
def processAttrs (validate : Bool) :
    List Attribute → List (String × String) → List (String × PyVal) →
    Except (EntityErr × List (String × PyVal)) (List (String × String) × List (String × PyVal))
  | [], dict, attrs => .ok (dict, attrs)
  | a :: rest, dict, attrs =>
    match alookup a.name dict with
    | none =>
      if validate && a.required && (alookup a.name attrs).isNone then
        .error (.requiredAttribute a.name, attrs)
      else processAttrs validate rest dict attrs
    | some v =>
      if !validate || a.mutable || (a.required && (alookup a.name attrs).isNone) then
        match attrFromString a v with
        | .error err => .error (err, attrs)
        | .ok val => processAttrs validate rest (aerase a.name dict) (ainsert a.name val attrs)
      else .error (.immutableAttribute a.name, attrs)

/-- `Entity.set_occi_attributes`: duplicate check, validation loop, then
`UnknownAttribute` on any left-over key. An error result carries the
entity as mutated before the raise. -/
def setOcciAttributes (e : Entity) (attrList : List (String × String)) (validate : Bool) :
    Except (EntityErr × Entity) Entity :=
  match buildAttrDict [] attrList with
  | .error err => .error (err, e)
  | .ok dict =>
    match processAttrs validate (declaredAttrs e) dict e.attrs with
    | .error (err, attrs') => .error (err, { e with attrs := attrs' })
    | .ok (dict', attrs') =>
      match dict' with
      | [] => .ok { e with attrs := attrs' }
      | (k, _) :: _ => .error (.unknownAttribute k, { e with attrs := attrs' })

/-- One public Entity operation, as named in the claim. -/
inductive EOp where
  | addMixin (m : Category)
  | removeMixin (m : Category)
  | setAttrs (l : List (String × String)) (validate : Bool)

/-- The entity state after a call: on an exception the object keeps the
mutations made before the raise. -/
def exceptState : Except (EntityErr × Entity) Entity → Entity
  | .ok e => e
  | .error (_, e) => e

/-- Run one operation against an entity, keeping the partially mutated
state when the call raises. -/
def runEOp (e : Entity) : EOp → Entity
  | .addMixin m => exceptState (addOcciMixin e m)
  | .removeMixin m => exceptState (removeOcciMixin e m)
  | .setAttrs l validate => exceptState (setOcciAttributes e l validate)

/-! ## C1: one Kind per Entity, stable under mixin/attribute operations -/

theorem mem_ainsert {κ α : Type} [DecidableEq κ] {p : κ × α} {k : κ} {v : α}
    {l : List (κ × α)} (h : p ∈ ainsert k v l) : p = (k, v) ∨ p ∈ l := by
  induction l with
  | nil => simpa [ainsert] using h
  | cons q rest ih =>
    obtain ⟨k₀, v₀⟩ := q
    by_cases h0 : k₀ = k
    · subst h0
      simp only [ainsert, if_pos rfl] at h
      rcases List.mem_cons.mp h with h | h
      · exact Or.inl h
      · exact Or.inr (List.mem_cons_of_mem _ h)
    · simp only [ainsert, if_neg h0] at h
      rcases List.mem_cons.mp h with h | h
      · exact Or.inr (by simp [h])
      · rcases ih h with h | h
        · exact Or.inl h
        · exact Or.inr (List.mem_cons_of_mem _ h)

theorem mem_aerase {κ α : Type} [DecidableEq κ] {p : κ × α} {k : κ}
    {l : List (κ × α)} (h : p ∈ aerase k l) : p ∈ l := by
  induction l with
  | nil => simpa [aerase] using h
  | cons q rest ih =>
    obtain ⟨k₀, v₀⟩ := q
    by_cases h0 : k₀ = k
    · simp only [aerase, if_pos h0] at h
      exact List.mem_cons_of_mem _ (ih h)
    · simp only [aerase, if_neg h0] at h
      rcases List.mem_cons.mp h with h | h
      · simp [h]
      · exact List.mem_cons_of_mem _ (ih h)

theorem setOcciAttributes_state (e : Entity) (l : List (String × String)) (validate : Bool) :
    (exceptState (setOcciAttributes e l validate)).kind = e.kind ∧
    (exceptState (setOcciAttributes e l validate)).mixins = e.mixins := by
  rw [setOcciAttributes]
  split
  · exact ⟨rfl, rfl⟩
  · split
    · exact ⟨rfl, rfl⟩
    · split
      · exact ⟨rfl, rfl⟩
      · exact ⟨rfl, rfl⟩

theorem runEOp_preserves (kind : Category) (e : Entity) (op : EOp)
    (h1 : e.kind = kind)
    (h2 : ∀ p ∈ e.mixins, (p : String × Category).2.cls = CatClass.mixin) :
    (runEOp e op).kind = kind ∧
    ∀ p ∈ (runEOp e op).mixins, (p : String × Category).2.cls = CatClass.mixin := by
  match op with
  | .addMixin m =>
    rw [runEOp, addOcciMixin]
    by_cases hm : m.cls = CatClass.mixin
    · simp only [if_pos hm, exceptState]
      refine ⟨h1, ?_⟩
      intro p hp
      rcases mem_ainsert hp with h | h
      · rw [h]; exact hm
      · exact h2 p h
    · simp only [if_neg hm, exceptState]
      exact ⟨h1, h2⟩
  | .removeMixin m =>
    rw [runEOp, removeOcciMixin]
    match alookup (catId m) e.mixins with
    | none => exact ⟨h1, h2⟩
    | some stored =>
      simp only [exceptState]
      exact ⟨h1, fun p hp => h2 p (mem_aerase hp)⟩
  | .setAttrs l validate =>
    have hs := setOcciAttributes_state e l validate
    rw [runEOp]
    rw [hs.1, hs.2]
    exact ⟨h1, h2⟩

theorem foldl_runEOp_preserves (kind : Category) (ops : List EOp) : ∀ e : Entity,
    e.kind = kind →
    (∀ p ∈ e.mixins, (p : String × Category).2.cls = CatClass.mixin) →
    (ops.foldl runEOp e).kind = kind ∧
    ∀ p ∈ (ops.foldl runEOp e).mixins, (p : String × Category).2.cls = CatClass.mixin := by
  induction ops with
  | nil => intro e h1 h2; exact ⟨h1, h2⟩
  | cons op rest ih =>
    intro e h1 h2
    have hstep := runEOp_preserves kind e op h1 h2
    simpa [List.foldl_cons] using ih (runEOp e op) hstep.1 hstep.2

theorem addMixinInit_ok_mixin {e : Entity} {m : Category} (hm : m.cls = CatClass.mixin) :
    addMixinInit (Except.ok e) m = Except.ok
      { e with mixins := ainsert (catId m) m e.mixins,
               actionsAvailable := addActionsAvailable m.actions e.actionsAvailable } := by
  simp [addMixinInit, addOcciMixin, hm]

theorem addMixinInit_ok_notmixin {e : Entity} {m : Category} (hm : ¬ m.cls = CatClass.mixin) :
    addMixinInit (Except.ok e) m = Except.error (.invalidCategory (catId m)) := by
  simp [addMixinInit, addOcciMixin, hm]

theorem foldl_addMixinInit_error (rest : List Category) (err : EntityErr) :
    rest.foldl addMixinInit (.error err) = .error err := by
  induction rest with
  | nil => rfl
  | cons m rest ih => simpa [List.foldl_cons, addMixinInit] using ih

theorem mkEntity_inv (kind : Category) (ms : List Category) (e0 : Entity)
    (h : mkEntity kind ms = .ok e0) :
    kind.cls = CatClass.kind ∧ e0.kind = kind ∧
    ∀ p ∈ e0.mixins, (p : String × Category).2.cls = CatClass.mixin := by
  rw [mkEntity] at h
  by_cases hc : kind.cls = CatClass.kind ∧ isRelated kind entityKind
  · rw [if_pos hc] at h
    refine ⟨hc.1, ?_⟩
    have base :
        ∀ (ms' : List Category) (e : Entity), e.kind = kind →
          (∀ p ∈ e.mixins, (p : String × Category).2.cls = CatClass.mixin) →
          ms'.foldl addMixinInit (Except.ok e) = Except.ok e0 →
          e0.kind = kind ∧
          ∀ p ∈ e0.mixins, (p : String × Category).2.cls = CatClass.mixin := by
      intro ms'
      induction ms' with
      | nil =>
        intro e h1 h2 hh
        simp only [List.foldl_nil, Except.ok.injEq] at hh
        subst hh
        exact ⟨h1, h2⟩
      | cons m rest ih =>
        intro e h1 h2 hh
        rw [List.foldl_cons] at hh
        by_cases hm : m.cls = CatClass.mixin
        · rw [addMixinInit_ok_mixin hm] at hh
          refine ih _ ?_ ?_ hh
          · exact h1
          · intro p hp
            rcases mem_ainsert hp with hq | hq
            · rw [hq]; exact hm
            · exact h2 p hq
        · rw [addMixinInit_ok_notmixin hm] at hh
          rw [foldl_addMixinInit_error] at hh
          exact absurd hh (by simp)
    exact base ms _ rfl (by intro p hp; simp at hp) h
  · rw [if_neg hc] at h
    exact absurd h (by simp)

/-- C1: an Entity constructed with a valid Kind keeps, through any sequence
of `add_occi_mixin` / `remove_occi_mixin` / `set_occi_attributes` calls, a
`list_occi_categories()` equal to its single Kind followed by exactly the
currently attached Mixins: it contains exactly one Kind (the construction
Kind, which `remove_occi_mixin` never removes) and every other member is an
attached Mixin. -/
theorem C1_single_kind_invariant (kind : Category) (ms : List Category) (e0 : Entity)
    (ops : List EOp) (h0 : mkEntity kind ms = .ok e0) :
    listOcciCategories (ops.foldl runEOp e0)
        = (ops.foldl runEOp e0).kind :: (ops.foldl runEOp e0).mixins.map Prod.snd ∧
    (ops.foldl runEOp e0).kind = kind ∧
    (listOcciCategories (ops.foldl runEOp e0)).countP (fun c => c.cls == CatClass.kind) = 1 ∧
    ∀ c ∈ (ops.foldl runEOp e0).mixins.map Prod.snd, c.cls = CatClass.mixin := by
  obtain ⟨hck, h1, h2⟩ := mkEntity_inv kind ms e0 h0
  obtain ⟨hk, hm⟩ := foldl_runEOp_preserves kind ops e0 h1 h2
  refine ⟨rfl, hk, ?_, ?_⟩
  · rw [listOcciCategories, List.countP_cons]
    have hkind : ((ops.foldl runEOp e0).kind.cls == CatClass.kind) = true := by
      rw [hk, hck]; rfl
    rw [hkind]
    have hzero :
        ((ops.foldl runEOp e0).mixins.map Prod.snd).countP (fun c => c.cls == CatClass.kind)
          = 0 := by
      rw [List.countP_eq_zero]
      intro c hc
      obtain ⟨p, hp, hpc⟩ := List.mem_map.mp hc
      have := hm p hp
      rw [← hpc] at *
      simp [this]
    rw [hzero]
    simp
  · intro c hc
    obtain ⟨p, hp, hpc⟩ := List.mem_map.mp hc
    rw [← hpc]
    exact hm p hp

/-- A user-defined Mixin used in concrete instantiations. -/
def userMixin : Category :=
  .mk "user" "http://example.com/occi#" CatClass.mixin none [] [] none []

/-- The freshly constructed state of `Entity(LinkKind)`. -/
def linkEntity0 : Entity :=
  { kind := linkKind, mixins := [], attrs := [],
    actionsAvailable := [], actionsApplicable := [] }

/-- Witness for C1 at `Entity(LinkKind)` with a mixin attached and
removed. -/
theorem C1_single_kind_invariant_witness :
    (listOcciCategories ([EOp.addMixin userMixin, EOp.removeMixin userMixin].foldl
        runEOp linkEntity0)).countP (fun c => c.cls == CatClass.kind) = 1 :=
  (C1_single_kind_invariant linkKind [] linkEntity0
    [EOp.addMixin userMixin, EOp.removeMixin userMixin] (by rfl)).2.2.1

/-! ## Lemmas on the two phases of `set_occi_attributes` -/

theorem alookup_eq_none {κ α : Type} [DecidableEq κ] (k : κ) (l : List (κ × α)) :
    alookup k l = none ↔ k ∉ l.map Prod.fst := by
  induction l with
  | nil => simp [alookup]
  | cons p rest ih =>
    obtain ⟨k₀, v₀⟩ := p
    by_cases h0 : k₀ = k
    · subst h0; simp [alookup]
    · simp [alookup, h0, ih, Ne.symm h0]

theorem buildAttrDict_ok_eq (l : List (String × String)) : ∀ acc d,
    buildAttrDict acc l = .ok d → d = acc ++ l := by
  induction l with
  | nil =>
    intro acc d h
    simp only [buildAttrDict, Except.ok.injEq] at h
    simp [← h]
  | cons p rest ih =>
    obtain ⟨k, v⟩ := p
    intro acc d h
    rw [buildAttrDict] at h
    by_cases hk : (alookup k acc).isSome
    · rw [if_pos hk] at h
      exact absurd h (by simp)
    · rw [if_neg hk] at h
      have := ih (acc ++ [(k, v)]) d h
      simpa [List.append_assoc] using this

theorem buildAttrDict_ok_nodup (l : List (String × String)) : ∀ acc d,
    (acc.map Prod.fst).Nodup → buildAttrDict acc l = .ok d →
    (d.map Prod.fst).Nodup := by
  induction l with
  | nil =>
    intro acc d hnd h
    simp only [buildAttrDict, Except.ok.injEq] at h
    rwa [← h]
  | cons p rest ih =>
    obtain ⟨k, v⟩ := p
    intro acc d hnd h
    rw [buildAttrDict] at h
    by_cases hk : (alookup k acc).isSome
    · rw [if_pos hk] at h
      exact absurd h (by simp)
    · rw [if_neg hk] at h
      refine ih (acc ++ [(k, v)]) d ?_ h
      have hnotin : k ∉ acc.map Prod.fst := by
        rw [← alookup_eq_none k acc]
        rcases hh : alookup k acc with _ | w
        · rfl
        · rw [hh] at hk; simp at hk
      simp [List.nodup_append, hnd, hnotin]

theorem buildAttrDict_shape (l : List (String × String)) : ∀ acc,
    (∃ d, buildAttrDict acc l = .ok d) ∨
    ∃ k, buildAttrDict acc l = .error (.duplicateAttribute k) := by
  induction l with
  | nil => intro acc; exact Or.inl ⟨acc, rfl⟩
  | cons p rest ih =>
    obtain ⟨k, v⟩ := p
    intro acc
    rw [buildAttrDict]
    by_cases hk : (alookup k acc).isSome
    · rw [if_pos hk]
      exact Or.inr ⟨k, rfl⟩
    · rw [if_neg hk]
      exact ih (acc ++ [(k, v)])

theorem buildAttrDict_dup (l : List (String × String)) (hnd : ¬ (l.map Prod.fst).Nodup) :
    ∃ k, buildAttrDict [] l = .error (.duplicateAttribute k) := by
  rcases buildAttrDict_shape l [] with ⟨d, hd⟩ | hdup
  · have h1 := buildAttrDict_ok_eq l [] d hd
    have h2 := buildAttrDict_ok_nodup l [] d (by simp) hd
    rw [h1] at h2
    simp only [List.nil_append] at h2
    exact absurd h2 hnd
  · exact hdup

theorem buildAttrDict_single (n w : String) :
    buildAttrDict [] [(n, w)] = .ok [(n, w)] := by
  rw [buildAttrDict]
  simp [alookup, buildAttrDict]

theorem attrFromString_error_shape (a : Attribute) (s : String) (err : EntityErr)
    (h : attrFromString a s = .error err) : err = .attrInvalid a.name s := by
  rw [attrFromString] at h
  rcases a with ⟨nm, req, mu, ty⟩
  rcases ty with _ | _ | _ | _
  · simp at h
  · rcases hi : intFromString s with _ | z <;> rw [hi] at h <;> simp at h
    · exact h.symm
  · rcases hf : floatFromString s with _ | q <;> rw [hf] at h <;> simp at h
    · exact h.symm
  · rcases hb : boolFromString s with _ | b <;> rw [hb] at h <;> simp at h
    · exact h.symm

theorem find?_cons_pos {α : Type} (p : α → Bool) (a : α) (l : List α) (h : p a = true) :
    (a :: l).find? p = some a := by
  rw [List.find?, h]

theorem find?_cons_neg {α : Type} (p : α → Bool) (a : α) (l : List α) (h : p a = false) :
    (a :: l).find? p = l.find? p := by
  rw [List.find?, h]

theorem processAttrs_sub (validate : Bool) (ds : List Attribute) :
    ∀ dict attrs dict2 attrs2,
    processAttrs validate ds dict attrs = .ok (dict2, attrs2) →
    ∀ k w, alookup k dict2 = some w → alookup k dict = some w := by
  induction ds with
  | nil =>
    intro dict attrs dict2 attrs2 h k w hk
    simp only [processAttrs, Except.ok.injEq, Prod.mk.injEq] at h
    obtain ⟨h1, h2⟩ := h
    subst h1
    exact hk
  | cons a rest ih =>
    intro dict attrs dict2 attrs2 h k w hk
    rw [processAttrs] at h
    split at h
    · split at h
      · simp at h
      · exact ih dict attrs dict2 attrs2 h k w hk
    · rename_i v hl
      split at h
      · split at h
        · simp at h
        · rename_i val hconv
          have := ih _ _ _ _ h k w hk
          by_cases hkn : a.name = k
          · subst hkn
            rw [alookup_aerase_self] at this
            simp at this
          · rwa [alookup_aerase_ne k a.name dict hkn] at this
      · simp at h

theorem processAttrs_pres (validate : Bool) (ds : List Attribute) :
    ∀ dict attrs dict2 attrs2,
    processAttrs validate ds dict attrs = .ok (dict2, attrs2) →
    ∀ n, alookup n dict = none → alookup n attrs2 = alookup n attrs := by
  induction ds with
  | nil =>
    intro dict attrs dict2 attrs2 h n hn
    simp only [processAttrs, Except.ok.injEq, Prod.mk.injEq] at h
    obtain ⟨h1, h2⟩ := h
    subst h2
    rfl
  | cons a rest ih =>
    intro dict attrs dict2 attrs2 h n hn
    rw [processAttrs] at h
    split at h
    · split at h
      · simp at h
      · exact ih dict attrs dict2 attrs2 h n hn
    · rename_i v hl
      split at h
      · split at h
        · simp at h
        · rename_i val hconv
          have hne : a.name ≠ n := by
            intro he; rw [he, hn] at hl; exact absurd hl (by simp)
          have := ih _ _ _ _ h n (by rwa [alookup_aerase_ne n a.name dict hne])
          rwa [alookup_ainsert_ne n a.name val attrs hne] at this
      · simp at h

theorem processAttrs_mono (validate : Bool) (ds : List Attribute) :
    ∀ dict attrs dict2 attrs2,
    processAttrs validate ds dict attrs = .ok (dict2, attrs2) →
    ∀ m, (alookup m attrs).isSome → (alookup m attrs2).isSome := by
  induction ds with
  | nil =>
    intro dict attrs dict2 attrs2 h m hm
    simp only [processAttrs, Except.ok.injEq, Prod.mk.injEq] at h
    obtain ⟨h1, h2⟩ := h
    subst h2
    exact hm
  | cons a rest ih =>
    intro dict attrs dict2 attrs2 h m hm
    rw [processAttrs] at h
    split at h
    · split at h
      · simp at h
      · exact ih dict attrs dict2 attrs2 h m hm
    · rename_i v hl
      split at h
      · split at h
        · simp at h
        · rename_i val hconv
          refine ih _ _ _ _ h m ?_
          by_cases hmn : a.name = m
          · subst hmn
            rw [alookup_ainsert_self]
            rfl
          · rwa [alookup_ainsert_ne m a.name val attrs hmn]
      · simp at h

theorem processAttrs_decl_consumed (validate : Bool) (ds : List Attribute) :
    ∀ dict attrs dict2 attrs2,
    processAttrs validate ds dict attrs = .ok (dict2, attrs2) →
    ∀ k, (ds.find? fun x => x.name == k).isSome → alookup k dict2 = none := by
  induction ds with
  | nil =>
    intro dict attrs dict2 attrs2 h k hk
    simp [List.find?] at hk
  | cons a rest ih =>
    intro dict attrs dict2 attrs2 h k hk
    rw [processAttrs] at h
    split at h
    · rename_i hl
      split at h
      · simp at h
      · by_cases hak : (a.name == k) = true
        · have hk2 : a.name = k := by simpa using hak
          subst hk2
          rcases hd2 : alookup a.name dict2 with _ | w
          · rfl
          · have := processAttrs_sub validate rest dict attrs dict2 attrs2 h _ _ hd2
            rw [hl] at this
            simp at this
        · rw [find?_cons_neg (fun x : Attribute => x.name == k) a rest
              (by simpa using hak)] at hk
          exact ih dict attrs dict2 attrs2 h k hk
    · rename_i v hl
      split at h
      · split at h
        · simp at h
        · rename_i val hconv
          by_cases hak : (a.name == k) = true
          · have hk2 : a.name = k := by simpa using hak
            subst hk2
            rcases hd2 : alookup a.name dict2 with _ | w
            · rfl
            · have := processAttrs_sub validate rest _ _ dict2 attrs2 h _ _ hd2
              rw [alookup_aerase_self] at this
              simp at this
          · rw [find?_cons_neg (fun x : Attribute => x.name == k) a rest
                (by simpa using hak)] at hk
            exact ih _ _ dict2 attrs2 h k hk
      · simp at h

theorem processAttrs_undecl (validate : Bool) (ds : List Attribute) :
    ∀ dict attrs dict2 attrs2,
    processAttrs validate ds dict attrs = .ok (dict2, attrs2) →
    ∀ k, (ds.find? fun x => x.name == k) = none → alookup k dict2 = alookup k dict := by
  induction ds with
  | nil =>
    intro dict attrs dict2 attrs2 h k _
    simp only [processAttrs, Except.ok.injEq, Prod.mk.injEq] at h
    obtain ⟨h1, h2⟩ := h
    subst h1
    rfl
  | cons a rest ih =>
    intro dict attrs dict2 attrs2 h k hk
    have hfa : ((fun x : Attribute => x.name == k) a) = false := by
      by_cases hak : (a.name == k) = true
      · rw [find?_cons_pos (fun x : Attribute => x.name == k) a rest (by simpa using hak)] at hk
        simp at hk
      · simpa using hak
    have hrest : (rest.find? fun x => x.name == k) = none := by
      rwa [find?_cons_neg (fun x : Attribute => x.name == k) a rest hfa] at hk
    have hank : a.name ≠ k := by simpa using hfa
    rw [processAttrs] at h
    split at h
    · split at h
      · simp at h
      · exact ih dict attrs dict2 attrs2 h k hrest
    · rename_i v hl
      split at h
      · split at h
        · simp at h
        · rename_i val hconv
          have := ih _ _ dict2 attrs2 h k hrest
          rwa [alookup_aerase_ne k a.name dict hank] at this
      · simp at h

theorem isSome_alookup_ainsert {κ α : Type} [DecidableEq κ] (k m : κ) (v : α)
    (l : List (κ × α)) (h : (alookup m l).isSome) : (alookup m (ainsert k v l)).isSome := by
  by_cases hkm : k = m
  · subst hkm
    rw [alookup_ainsert_self]
    rfl
  · rwa [alookup_ainsert_ne m k v l hkm]

theorem processAttrs_store (ds : List Attribute) :
    ∀ dict attrs dict2 attrs2,
    processAttrs true ds dict attrs = .ok (dict2, attrs2) →
    ∀ n w, alookup n dict = some w →
    ∀ a, (ds.find? fun x => x.name == n) = some a →
    (a.mutable = true ∨ (a.required = true ∧ alookup n attrs = none)) ∧
    ∃ val, attrFromString a w = .ok val ∧ alookup n attrs2 = some val := by
  induction ds with
  | nil =>
    intro dict attrs dict2 attrs2 h n w hn a hfind
    simp [List.find?] at hfind
  | cons a0 rest ih =>
    intro dict attrs dict2 attrs2 h n w hn a hfind
    by_cases hak : (a0.name == n) = true
    · have han : a0.name = n := by simpa using hak
      rw [find?_cons_pos (fun x : Attribute => x.name == n) a0 rest (by simpa using hak)]
        at hfind
      have haa : a0 = a := by simpa using hfind
      subst haa
      rw [processAttrs] at h
      split at h
      · rename_i hl
        rw [han, hn] at hl
        simp at hl
      · rename_i v hl
        rw [han, hn] at hl
        have hvw : v = w := by simpa using hl.symm
        subst hvw
        split at h
        · rename_i hcond
          split at h
          · simp at h
          · rename_i val hconv
            refine ⟨?_, val, hconv, ?_⟩
            · simp only [Bool.not_true, Bool.false_or, Bool.or_eq_true,
                Bool.and_eq_true, Option.isNone_iff_eq_none] at hcond
              rw [han] at hcond
              exact hcond
            · have hpres := processAttrs_pres true rest _ _ dict2 attrs2 h n
                (by rw [← han, alookup_aerase_self])
              rw [hpres, ← han, alookup_ainsert_self]
        · simp at h
    · have han : a0.name ≠ n := by simpa using hak
      rw [find?_cons_neg (fun x : Attribute => x.name == n) a0 rest (by simpa using hak)]
        at hfind
      rw [processAttrs] at h
      split at h
      · split at h
        · simp at h
        · exact ih dict attrs dict2 attrs2 h n w hn a hfind
      · rename_i v hl
        split at h
        · split at h
          · simp at h
          · rename_i val hconv
            have ih2 := ih _ _ _ _ h n w
              (by rwa [alookup_aerase_ne n a0.name dict han]) a hfind
            rwa [alookup_ainsert_ne n a0.name val attrs han] at ih2
        · simp at h

theorem processAttrs_immutable (ds : List Attribute) :
    ∀ (n w : String) (attrs : List (String × PyVal)) (a : Attribute),
    (ds.find? fun x => x.name == n) = some a →
    a.mutable = false →
    (a.required = true → (alookup n attrs).isSome) →
    (∀ b ∈ ds, b.required = true → (alookup b.name attrs).isSome) →
    processAttrs true ds [(n, w)] attrs = .error (.immutableAttribute n, attrs) := by
  induction ds with
  | nil =>
    intro n w attrs a hfind
    simp [List.find?] at hfind
  | cons a0 rest ih =>
    intro n w attrs a hfind hmut hset hreq
    by_cases hak : (a0.name == n) = true
    · have han : a0.name = n := by simpa using hak
      rw [find?_cons_pos (fun x : Attribute => x.name == n) a0 rest (by simpa using hak)]
        at hfind
      have haa : a0 = a := by simpa using hfind
      subst haa
      rw [processAttrs]
      split
      · rename_i hl
        rw [han] at hl
        simp [alookup] at hl
      · rename_i v hl
        have hcond : (!true || a0.mutable || (a0.required && (alookup a0.name attrs).isNone))
            = false := by
          rw [hmut]
          by_cases hr : a0.required = true
          · have hsome := hset hr
            rw [← han] at hsome
            rcases hv : alookup a0.name attrs with _ | u
            · rw [hv] at hsome; simp at hsome
            · simp [hr, hv]
          · have hrf : a0.required = false := by simpa using hr
            simp [hrf]
        rw [hcond]
        simp [han]
    · have han : a0.name ≠ n := by simpa using hak
      rw [find?_cons_neg (fun x : Attribute => x.name == n) a0 rest (by simpa using hak)]
        at hfind
      rw [processAttrs]
      split
      · rename_i hl
        have hcond : (true && a0.required && (alookup a0.name attrs).isNone) = false := by
          by_cases hr : a0.required = true
          · have := hreq a0 (List.mem_cons_self _ _) hr
            rcases hv : alookup a0.name attrs with _ | u
            · rw [hv] at this; simp at this
            · simp [hr, hv]
          · have : a0.required = false := by simpa using hr
            simp [this]
        rw [hcond]
        simp only [if_neg Bool.false_ne_true]
        exact ih n w attrs a hfind hmut hset
          (fun b hb => hreq b (List.mem_cons_of_mem _ hb))
      · rename_i v hl
        rw [show alookup a0.name [(n, w)] = none by simp [alookup, Ne.symm han]] at hl
        simp at hl

theorem processAttrs_empty_dict (ds : List Attribute) :
    ∀ attrs, (∀ b ∈ ds, b.required = true → (alookup b.name attrs).isSome) →
    processAttrs true ds [] attrs = .ok ([], attrs) := by
  induction ds with
  | nil => intro attrs _; rfl
  | cons a0 rest ih =>
    intro attrs hreq
    rw [processAttrs]
    split
    · have hcond : (true && a0.required && (alookup a0.name attrs).isNone) = false := by
        by_cases hr : a0.required = true
        · have := hreq a0 (List.mem_cons_self _ _) hr
          rcases hv : alookup a0.name attrs with _ | u
          · rw [hv] at this; simp at this
          · simp [hr, hv]
        · have : a0.required = false := by simpa using hr
          simp [this]
      rw [hcond]
      simp only [if_neg Bool.false_ne_true]
      exact ih attrs (fun b hb => hreq b (List.mem_cons_of_mem _ hb))
    · rename_i v hl
      simp [alookup] at hl

theorem processAttrs_mutable_ok (ds : List Attribute) :
    ∀ (n w : String) (val : PyVal) (attrs : List (String × PyVal)) (a : Attribute),
    (ds.find? fun x => x.name == n) = some a →
    a.mutable = true →
    attrFromString a w = .ok val →
    (∀ b ∈ ds, b.required = true → (alookup b.name attrs).isSome) →
    processAttrs true ds [(n, w)] attrs = .ok ([], ainsert n val attrs) := by
  induction ds with
  | nil =>
    intro n w val attrs a hfind
    simp [List.find?] at hfind
  | cons a0 rest ih =>
    intro n w val attrs a hfind hmut hconv hreq
    by_cases hak : (a0.name == n) = true
    · have han : a0.name = n := by simpa using hak
      rw [find?_cons_pos (fun x : Attribute => x.name == n) a0 rest (by simpa using hak)]
        at hfind
      have haa : a0 = a := by simpa using hfind
      subst haa
      rw [processAttrs]
      split
      · rename_i hl
        rw [han] at hl
        simp [alookup] at hl
      · rename_i v hl
        rw [show alookup a0.name [(n, w)] = some w by rw [han]; simp [alookup]] at hl
        have hvw : w = v := by simpa using hl
        subst hvw
        have hcond : (!true || a0.mutable || (a0.required && (alookup a0.name attrs).isNone))
            = true := by simp [hmut]
        rw [hcond]
        simp only [if_pos rfl, hconv]
        have hde : aerase a0.name [(n, w)] = [] := by
          rw [han]
          simp [aerase]
        rw [hde]
        have := processAttrs_empty_dict rest (ainsert a0.name val attrs)
          (fun b hb hr => isSome_alookup_ainsert _ _ _ _
            (hreq b (List.mem_cons_of_mem _ hb) hr))
        rw [this, han]
        simp
    · have han : a0.name ≠ n := by simpa using hak
      rw [find?_cons_neg (fun x : Attribute => x.name == n) a0 rest (by simpa using hak)]
        at hfind
      rw [processAttrs]
      split
      · have hcond : (true && a0.required && (alookup a0.name attrs).isNone) = false := by
          by_cases hr : a0.required = true
          · have := hreq a0 (List.mem_cons_self _ _) hr
            rcases hv : alookup a0.name attrs with _ | u
            · rw [hv] at this; simp at this
            · simp [hr, hv]
          · have : a0.required = false := by simpa using hr
            simp [this]
        rw [hcond]
        simp only [if_neg Bool.false_ne_true]
        exact ih n w val attrs a hfind hmut hconv
          (fun b hb => hreq b (List.mem_cons_of_mem _ hb))
      · rename_i v hl
        rw [show alookup a0.name [(n, w)] = none by simp [alookup, Ne.symm han]] at hl
        simp at hl

theorem setOcciAttributes_step (e : Entity) (l : List (String × String)) (validate : Bool)
    (dict : List (String × String)) (hbd : buildAttrDict [] l = .ok dict) :
    setOcciAttributes e l validate =
      match processAttrs validate (declaredAttrs e) dict e.attrs with
      | .error (err, attrs2) => .error (err, { e with attrs := attrs2 })
      | .ok (dict2, attrs2) =>
        match dict2 with
        | [] => .ok { e with attrs := attrs2 }
        | (k, _) :: _ => .error (.unknownAttribute k, { e with attrs := attrs2 }) := by
  rw [setOcciAttributes, hbd]

/-- Repeatedly call `set_occi_attributes` with a single pair `(n, w)` for
each value in the list, stopping at the first exception. -/
def iterSetAttr (e : Entity) (n : String) : List String → Except (EntityErr × Entity) Entity
  | [] => .ok e
  | w :: ws =>
    match setOcciAttributes e [(n, w)] true with
    | .ok e2 => iterSetAttr e2 n ws
    | .error err => .error err

/-- C2: with `validate=True`, an input pair for a declared attribute is
stored exactly when the attribute is mutable, or required and not yet
stored (write-once); a blocked single-pair write raises
`ImmutableAttribute` naming that attribute (given the other required
attributes are already populated, so no earlier check fires); and a
mutable declared attribute can be overwritten any number of times, the
store ending at the conversion of the last value written. -/
theorem C2_write_once_mutability :
    (∀ (e : Entity) (l : List (String × String)) (e2 : Entity),
      setOcciAttributes e l true = .ok e2 →
      ∀ n w, (n, w) ∈ l →
      ∃ a, firstDecl e n = some a ∧
        (a.mutable = true ∨ (a.required = true ∧ alookup n e.attrs = none)) ∧
        ∃ val, attrFromString a w = .ok val ∧ alookup n e2.attrs = some val) ∧
    (∀ (e : Entity) (n w : String) (a : Attribute),
      firstDecl e n = some a →
      a.mutable = false →
      (a.required = true → (alookup n e.attrs).isSome) →
      (∀ b ∈ declaredAttrs e, b.required = true → (alookup b.name e.attrs).isSome) →
      setOcciAttributes e [(n, w)] true = .error (.immutableAttribute n, e)) ∧
    (∀ (e : Entity) (n : String) (a : Attribute) (ws : List String),
      firstDecl e n = some a →
      a.mutable = true →
      (∀ b ∈ declaredAttrs e, b.required = true → (alookup b.name e.attrs).isSome) →
      (∀ w ∈ ws, ∃ u, attrFromString a w = .ok u) →
      ∃ e2, iterSetAttr e n ws = .ok e2 ∧
        ∀ lw u, ws.getLast? = some lw → attrFromString a lw = .ok u →
          alookup n e2.attrs = some u) := by
  refine ⟨?_, ?_, ?_⟩
  · intro e l e2 h n w hmem
    rcases hbd : buildAttrDict [] l with err | dict
    · rw [setOcciAttributes, hbd] at h
      exact Except.noConfusion (show Except.error (err, e) = Except.ok e2 from h)
    · rw [setOcciAttributes_step e l true dict hbd] at h
      rcases hpr : processAttrs true (declaredAttrs e) dict e.attrs with
        ⟨err, attrs2⟩ | ⟨dict2, attrs2⟩
      · rw [hpr] at h
        exact Except.noConfusion
          (show Except.error (err, { e with attrs := attrs2 }) = Except.ok e2 from h)
      · rw [hpr] at h
        rcases dict2 with _ | ⟨⟨k, v⟩, dtail⟩
        · have he2 : ({ e with attrs := attrs2 } : Entity) = e2 := by
            have h2 : Except.ok ({ e with attrs := attrs2 } : Entity) = Except.ok e2 := h
            injection h2
          have hdl : dict = l := by
            have := buildAttrDict_ok_eq l [] dict hbd
            simpa using this
          rw [hdl] at hpr
          have hnd := buildAttrDict_ok_nodup l [] dict (by simp) hbd
          rw [hdl] at hnd
          have hlook : alookup n l = some w := alookup_eq_of_mem_nodup hmem hnd
          rcases hfd : firstDecl e n with _ | a
          · exfalso
            rw [firstDecl] at hfd
            have := processAttrs_undecl true (declaredAttrs e) l e.attrs [] attrs2 hpr n hfd
            rw [hlook] at this
            simp [alookup] at this
          · have hst := processAttrs_store (declaredAttrs e) l e.attrs [] attrs2 hpr n w
              hlook a hfd
            refine ⟨a, rfl, hst.1, ?_⟩
            obtain ⟨val, hval, hla⟩ := hst.2
            refine ⟨val, hval, ?_⟩
            rw [← he2]
            exact hla
        · exact Except.noConfusion
            (show Except.error (EntityErr.unknownAttribute k, { e with attrs := attrs2 })
              = Except.ok e2 from h)
  · intro e n w a hfd hmut hset hreq
    rw [setOcciAttributes_step e [(n, w)] true [(n, w)] (buildAttrDict_single n w),
      processAttrs_immutable (declaredAttrs e) n w e.attrs a hfd hmut hset hreq]
  · intro e n a ws
    induction ws generalizing e with
    | nil =>
      intro hfd hmut hreq hws
      exact ⟨e, rfl, fun lw u hlast => by simp at hlast⟩
    | cons w ws ih =>
      intro hfd hmut hreq hws
      obtain ⟨u, hu⟩ := hws w (List.mem_cons_self _ _)
      have hstep : setOcciAttributes e [(n, w)] true
          = .ok { e with attrs := ainsert n u e.attrs } := by
        rw [setOcciAttributes_step e [(n, w)] true [(n, w)] (buildAttrDict_single n w),
          processAttrs_mutable_ok (declaredAttrs e) n w u e.attrs a hfd hmut hu hreq]
      have hfd2 : firstDecl { e with attrs := ainsert n u e.attrs } n = some a := hfd
      have hreq2 : ∀ b ∈ declaredAttrs { e with attrs := ainsert n u e.attrs },
          b.required = true →
          (alookup b.name ({ e with attrs := ainsert n u e.attrs } : Entity).attrs).isSome :=
        fun b hb hr => isSome_alookup_ainsert _ _ _ _ (hreq b hb hr)
      rcases ws with _ | ⟨w2, ws2⟩
      · refine ⟨{ e with attrs := ainsert n u e.attrs }, ?_, ?_⟩
        · rw [iterSetAttr, hstep]
          rfl
        · intro lw u2 hlast hconv2
          simp only [List.getLast?_singleton, Option.some.injEq] at hlast
          subst hlast
          rw [hu] at hconv2
          simp only [Except.ok.injEq] at hconv2
          subst hconv2
          exact alookup_ainsert_self n u e.attrs
      · obtain ⟨e2, hiter, hlast⟩ := ih { e with attrs := ainsert n u e.attrs }
          hfd2 hmut hreq2 (fun w3 hw3 => hws w3 (List.mem_cons_of_mem _ hw3))
        refine ⟨e2, ?_, ?_⟩
        · rw [iterSetAttr, hstep]
          exact hiter
        · intro lw u2 hlast2 hconv2
          refine hlast lw u2 ?_ hconv2
          rwa [List.getLast?_cons_cons] at hlast2

/-- Entity of `LinkKind` with both required attributes populated. -/
def linkEntityFull : Entity :=
  { linkEntity0 with attrs := [("source", PyVal.vStr "c1"), ("target", PyVal.vStr "s1")] }

/-- Witness for C2: on a Link, overwriting the stored required-immutable
`source` raises `ImmutableAttribute`, a successful bulk write stores the
mutable `target`, and `target` can be rewritten repeatedly. -/
theorem C2_write_once_mutability_witness :
    (∃ a, firstDecl linkEntityFull "target" = some a ∧
      (a.mutable = true ∨ (a.required = true ∧ alookup "target" linkEntityFull.attrs = none)) ∧
      ∃ val, attrFromString a "t2" = .ok val ∧
        alookup "target"
          (exceptState (setOcciAttributes linkEntityFull [("target", "t2")] true)).attrs
          = some val) ∧
    setOcciAttributes linkEntityFull [("source", "x")] true
      = .error (.immutableAttribute "source", linkEntityFull) ∧
    (∃ e2, iterSetAttr linkEntityFull "target" ["t2", "t3"] = .ok e2 ∧
      ∀ lw u, (["t2", "t3"] : List String).getLast? = some lw →
        attrFromString targetAttr lw = .ok u → alookup "target" e2.attrs = some u) := by
  refine ⟨?_, ?_, ?_⟩
  · exact C2_write_once_mutability.1 linkEntityFull [("target", "t2")]
      (exceptState (setOcciAttributes linkEntityFull [("target", "t2")] true))
      (by rfl) "target" "t2" (by decide)
  · exact C2_write_once_mutability.2.1 linkEntityFull "source" "x" sourceAttr
      (by decide) (by decide) (by decide) (by decide)
  · exact C2_write_once_mutability.2.2 linkEntityFull "target" targetAttr ["t2", "t3"]
      (by decide) (by decide) (by decide)
      (by intro w hw; exact ⟨PyVal.vStr w, rfl⟩)

theorem processAttrs_false_error (ds : List Attribute) :
    ∀ dict attrs err attrs2,
    processAttrs false ds dict attrs = .error (err, attrs2) →
    ∃ nm t, err = .attrInvalid nm t := by
  induction ds with
  | nil =>
    intro dict attrs err attrs2 h
    simp [processAttrs] at h
  | cons a0 rest ih =>
    intro dict attrs err attrs2 h
    rw [processAttrs] at h
    split at h
    · split at h
      · rename_i hcond
        simp at hcond
      · exact ih dict attrs err attrs2 h
    · rename_i v hl
      split at h
      · split at h
        · rename_i err0 hconv
          have hsh := attrFromString_error_shape a0 v err0 hconv
          simp only [Except.error.injEq, Prod.mk.injEq] at h
          exact ⟨a0.name, v, by rw [← h.1, hsh]⟩
        · exact ih _ _ err attrs2 h
      · rename_i hcond
        simp at hcond

theorem buildAttrDict_ok_of_nodup (l : List (String × String)) : ∀ acc,
    ((acc ++ l).map Prod.fst).Nodup → ∃ d, buildAttrDict acc l = .ok d := by
  induction l with
  | nil => intro acc _; exact ⟨acc, rfl⟩
  | cons p rest ih =>
    obtain ⟨k, v⟩ := p
    intro acc hnd
    rw [buildAttrDict]
    have hknotin : k ∉ acc.map Prod.fst := by
      intro hk
      have : ¬ ((acc ++ (k, v) :: rest).map Prod.fst).Nodup := by
        simp only [List.map_append, List.map_cons]
        intro hcontra
        have := (List.nodup_append.mp hcontra).2.2
        exact this hk (by simp)
      exact this hnd
    have hnone : alookup k acc = none := (alookup_eq_none k acc).mpr hknotin
    rw [if_neg (by simp [hnone])]
    refine ih (acc ++ [(k, v)]) ?_
    simpa using hnd

theorem processAttrs_false_ok (ds : List Attribute) :
    ∀ dict attrs,
    (∀ k w, alookup k dict = some w → ∀ a, (ds.find? fun x => x.name == k) = some a →
      ∃ u, attrFromString a w = .ok u) →
    ∃ dict2 attrs2, processAttrs false ds dict attrs = .ok (dict2, attrs2) := by
  induction ds with
  | nil => intro dict attrs _; exact ⟨dict, attrs, rfl⟩
  | cons a0 rest ih =>
    intro dict attrs hyp
    rcases hl : alookup a0.name dict with _ | v
    · have hstep : processAttrs false (a0 :: rest) dict attrs
          = processAttrs false rest dict attrs := by
        rw [processAttrs, hl]
        exact rfl
      rw [hstep]
      refine ih dict attrs ?_
      intro k w hk a hf
      have hkne : a0.name ≠ k := by
        intro he
        rw [he, hk] at hl
        simp at hl
      refine hyp k w hk a ?_
      rw [find?_cons_neg (fun x : Attribute => x.name == k) a0 rest (by simpa using hkne)]
      exact hf
    · obtain ⟨u, hu⟩ := hyp a0.name v hl a0
        (by rw [find?_cons_pos (fun x : Attribute => x.name == a0.name) a0 rest (by simp)])
      have hstep : processAttrs false (a0 :: rest) dict attrs
          = processAttrs false rest (aerase a0.name dict) (ainsert a0.name u attrs) := by
        simp [processAttrs, hl, hu]
      rw [hstep]
      refine ih _ _ ?_
      intro k w hk a hf
      have hkne : a0.name ≠ k := by
        intro he
        rw [he] at hk
        rw [← he, alookup_aerase_self] at hk
        · simp at hk
      refine hyp k w (by rwa [alookup_aerase_ne k a0.name dict hkne] at hk) a ?_
      rw [find?_cons_neg (fun x : Attribute => x.name == k) a0 rest (by simpa using hkne)]
      exact hf

/-- C3: with `validate=False` `set_occi_attributes` never raises
`ImmutableAttribute` or `RequiredAttribute`; a duplicated input key raises
`DuplicateAttribute` before any mutation regardless of the validate flag;
and with distinct keys an input key not declared by the Kind or any Mixin
raises `UnknownAttribute` naming some undeclared input key (once every
matched pair converts). -/
theorem C3_validate_false_checks :
    (∀ (e : Entity) (l : List (String × String)) (n : String) (e2 : Entity),
      setOcciAttributes e l false ≠ .error (.immutableAttribute n, e2) ∧
      setOcciAttributes e l false ≠ .error (.requiredAttribute n, e2)) ∧
    (∀ (e : Entity) (l : List (String × String)) (validate : Bool),
      ¬ (l.map Prod.fst).Nodup →
      ∃ k, setOcciAttributes e l validate = .error (.duplicateAttribute k, e)) ∧
    (∀ (e : Entity) (l : List (String × String)),
      (l.map Prod.fst).Nodup →
      (∀ n w, (n, w) ∈ l → ∀ a, firstDecl e n = some a → ∃ u, attrFromString a w = .ok u) →
      (∃ p ∈ l, firstDecl e (p : String × String).1 = none) →
      ∃ k e2, setOcciAttributes e l false = .error (.unknownAttribute k, e2) ∧
        firstDecl e k = none ∧ k ∈ l.map Prod.fst) := by
  refine ⟨?_, ?_, ?_⟩
  · intro e l n e2
    rcases hbd : buildAttrDict [] l with err | dict
    · have herr : ∃ k, err = EntityErr.duplicateAttribute k := by
        rcases buildAttrDict_shape l [] with ⟨d, hd⟩ | ⟨k, hk⟩
        · rw [hbd] at hd; simp at hd
        · rw [hbd] at hk
          simp only [Except.error.injEq] at hk
          exact ⟨k, hk⟩
      obtain ⟨k, hke⟩ := herr
      subst hke
      constructor
      · intro hcontra
        rw [setOcciAttributes, hbd] at hcontra
        have : (EntityErr.duplicateAttribute k, e)
            = (EntityErr.immutableAttribute n, e2) := by
          have h2 : Except.error (ε := EntityErr × Entity) (α := Entity)
              (EntityErr.duplicateAttribute k, e)
              = .error (.immutableAttribute n, e2) := hcontra
          injection h2
        simp at this
      · intro hcontra
        rw [setOcciAttributes, hbd] at hcontra
        have : (EntityErr.duplicateAttribute k, e)
            = (EntityErr.requiredAttribute n, e2) := by
          have h2 : Except.error (ε := EntityErr × Entity) (α := Entity)
              (EntityErr.duplicateAttribute k, e)
              = .error (.requiredAttribute n, e2) := hcontra
          injection h2
        simp at this
    · rw [setOcciAttributes_step e l false dict hbd]
      rcases hpr : processAttrs false (declaredAttrs e) dict e.attrs with
        ⟨err, attrs2⟩ | ⟨dict2, attrs2⟩
      · obtain ⟨nm, t, hsh⟩ := processAttrs_false_error (declaredAttrs e) dict e.attrs
          err attrs2 hpr
        subst hsh
        constructor
        · intro hcontra
          have h2 : Except.error (ε := EntityErr × Entity) (α := Entity)
              (EntityErr.attrInvalid nm t, { e with attrs := attrs2 })
              = .error (.immutableAttribute n, e2) := hcontra
          have h3 := congrArg (fun x : Except (EntityErr × Entity) Entity =>
            match x with
            | .error (.attrInvalid _ _, _) => true
            | _ => false) h2
          simp at h3
        · intro hcontra
          have h2 : Except.error (ε := EntityErr × Entity) (α := Entity)
              (EntityErr.attrInvalid nm t, { e with attrs := attrs2 })
              = .error (.requiredAttribute n, e2) := hcontra
          have h3 := congrArg (fun x : Except (EntityErr × Entity) Entity =>
            match x with
            | .error (.attrInvalid _ _, _) => true
            | _ => false) h2
          simp at h3
      · rcases dict2 with _ | ⟨⟨k, v⟩, dtail⟩
        · constructor
          · intro hcontra
            exact Except.noConfusion
              (show Except.ok ({ e with attrs := attrs2 } : Entity)
                = .error (.immutableAttribute n, e2) from hcontra)
          · intro hcontra
            exact Except.noConfusion
              (show Except.ok ({ e with attrs := attrs2 } : Entity)
                = .error (.requiredAttribute n, e2) from hcontra)
        · constructor
          · intro hcontra
            have h2 : Except.error (ε := EntityErr × Entity) (α := Entity)
                (EntityErr.unknownAttribute k, { e with attrs := attrs2 })
                = .error (.immutableAttribute n, e2) := hcontra
            have h3 := congrArg (fun x : Except (EntityErr × Entity) Entity =>
              match x with
              | .error (.unknownAttribute _, _) => true
              | _ => false) h2
            simp at h3
          · intro hcontra
            have h2 : Except.error (ε := EntityErr × Entity) (α := Entity)
                (EntityErr.unknownAttribute k, { e with attrs := attrs2 })
                = .error (.requiredAttribute n, e2) := hcontra
            have h3 := congrArg (fun x : Except (EntityErr × Entity) Entity =>
              match x with
              | .error (.unknownAttribute _, _) => true
              | _ => false) h2
            simp at h3
  · intro e l validate hnd
    obtain ⟨k, hk⟩ := buildAttrDict_dup l hnd
    refine ⟨k, ?_⟩
    rw [setOcciAttributes, hk]
  · intro e l hnd hconv hundecl
    obtain ⟨dict, hbd⟩ := buildAttrDict_ok_of_nodup l [] (by simpa using hnd)
    have hdl : dict = l := by
      have := buildAttrDict_ok_eq l [] dict hbd
      simpa using this
    subst hdl
    obtain ⟨dict2, attrs2, hpr⟩ := processAttrs_false_ok (declaredAttrs e) dict e.attrs
      (by
        intro k w hk a hf
        exact hconv k w (mem_of_alookup_eq_some hk) a hf)
    obtain ⟨p, hp, hpnone⟩ := hundecl
    obtain ⟨n0, w0⟩ := p
    have hlook0 : alookup n0 dict = some w0 := alookup_eq_of_mem_nodup hp hnd
    have hd2 : alookup n0 dict2 = some w0 := by
      rw [firstDecl] at hpnone
      rw [processAttrs_undecl false (declaredAttrs e) dict e.attrs dict2 attrs2 hpr n0 hpnone]
      exact hlook0
    rcases hdd : dict2 with _ | ⟨⟨k, v⟩, dtail⟩
    · rw [hdd] at hd2
      simp [alookup] at hd2
    · rw [hdd] at hpr
      have hkin : alookup k dict = some v :=
        processAttrs_sub false (declaredAttrs e) dict e.attrs _ attrs2 hpr k v
          (by simp [alookup])
      have hkfd : firstDecl e k = none := by
        rcases hfdk : firstDecl e k with _ | a
        · rfl
        · exfalso
          rw [firstDecl] at hfdk
          have := processAttrs_decl_consumed false (declaredAttrs e) dict e.attrs _ attrs2
            hpr k (by rw [hfdk]; rfl)
          simp [alookup] at this
      refine ⟨k, { e with attrs := attrs2 }, ?_, hkfd, ?_⟩
      · rw [setOcciAttributes_step e dict false dict hbd, hpr]
      · exact List.mem_map.mpr ⟨(k, v), mem_of_alookup_eq_some hkin, rfl⟩

/-- Witness for C3 at `Entity(LinkKind)`: no immutable/required error with
`validate=False`, a duplicate key fails with `DuplicateAttribute` even with
`validate=True`, and an undeclared key fails with `UnknownAttribute`. -/
theorem C3_validate_false_checks_witness :
    (setOcciAttributes linkEntity0 [("source", "s")] false
        ≠ .error (.immutableAttribute "source", linkEntity0) ∧
      setOcciAttributes linkEntity0 [("source", "s")] false
        ≠ .error (.requiredAttribute "source", linkEntity0)) ∧
    (∃ k, setOcciAttributes linkEntity0 [("title", "a"), ("title", "b")] true
        = .error (.duplicateAttribute k, linkEntity0)) ∧
    (∃ k e2, setOcciAttributes linkEntity0 [("foo", "1")] false
        = .error (.unknownAttribute k, e2) ∧
      firstDecl linkEntity0 k = none ∧
      k ∈ ([("foo", "1")] : List (String × String)).map Prod.fst) := by
  refine ⟨?_, ?_, ?_⟩
  · exact C3_validate_false_checks.1 linkEntity0 [("source", "s")] "source" linkEntity0
  · exact C3_validate_false_checks.2.1 linkEntity0 [("title", "a"), ("title", "b")] true
      (by decide)
  · refine C3_validate_false_checks.2.2 linkEntity0 [("foo", "1")] (by decide) ?_ ?_
    · intro n w hm a hfd
      simp only [List.mem_singleton, Prod.mk.injEq] at hm
      rw [hm.1] at hfd
      have hnone : firstDecl linkEntity0 "foo" = none := by decide
      rw [hnone] at hfd
      exact Option.noConfusion hfd
    · exact ⟨("foo", "1"), by decide, by decide⟩

/-! ## C9: attribute round-trips -/

/-- C9: `from_string(to_string(v)) = v` for `IntAttribute` and
`BoolAttribute`; `BoolAttribute.to_string` yields exactly `y` or `n` and
`from_string` rejects every other literal with `Attribute.Invalid`;
`FloatAttribute.to_string` renders a fixed two-decimal string, so the
round-trip returns `v` exactly when `v` has at most two decimal places. -/
theorem C9_attribute_roundtrips :
    (∀ v : Int, intFromString (intToString v) = some v) ∧
    (∀ b : Bool, boolFromString (boolToString b) = some b ∧
      (boolToString b = "y" ∨ boolToString b = "n")) ∧
    (∀ (a : Attribute) (s : String), a.atype = AttrType.bool → s ≠ "y" → s ≠ "n" →
      attrFromString a s = .error (.attrInvalid a.name s)) ∧
    (∀ v : Rat,
      (∃ pre d1 d2, d1 < 10 ∧ d2 < 10 ∧
        (floatToString v).toList = pre ++ ['.', digitChar d1, digitChar d2]) ∧
      (floatFromString (floatToString v) = some v ↔
        ∃ n : Int, (100 : Rat) * v = (n : Rat))) := by
  refine ⟨?_, ?_, ?_, ?_⟩
  · intro v
    exact parseIntChars_intToChars v
  · intro b
    cases b
    · exact ⟨rfl, Or.inr rfl⟩
    · exact ⟨rfl, Or.inl rfl⟩
  · intro a s hty h1 h2
    have hb : boolFromString s = none := by
      rw [boolFromString, if_neg h1, if_neg h2]
    obtain ⟨nm, req, mu, ty⟩ := a
    simp only [Attribute.mk.injEq] at hty ⊢
    subst hty
    simp [attrFromString, hb]
  · intro v
    constructor
    · refine ⟨(if roundHalfEven (100 * v) < 0 then ['-'] else []) ++
        natDigits ((roundHalfEven (100 * v)).natAbs / 100),
        (roundHalfEven (100 * v)).natAbs % 100 / 10,
        (roundHalfEven (100 * v)).natAbs % 100 % 10, by omega, by omega, ?_⟩
      show floatToChars v = _
      rw [floatToChars]
    · have hpf : floatFromString (floatToString v)
          = some ((roundHalfEven (100 * v) : Rat) / 100) := parseFloatChars_floatToChars v
      constructor
      · intro h
        rw [hpf] at h
        exact (roundHalfEven_div_eq_iff v).mp (Option.some.inj h)
      · intro hex
        rw [hpf, (roundHalfEven_div_eq_iff v).mpr hex]
  
/-- Witness for C9: the boolean rejection conjunct applied to a concrete
bool-typed attribute and the literal `x`. -/
theorem C9_attribute_roundtrips_witness :
    attrFromString ⟨"flag", true, true, AttrType.bool⟩ "x"
      = .error (.attrInvalid "flag" "x") ∧
    intFromString (intToString (-37)) = some (-37) :=
  ⟨C9_attribute_roundtrips.2.2.1 ⟨"flag", true, true, AttrType.bool⟩ "x" rfl
    (by decide) (by decide),
   C9_attribute_roundtrips.1 (-37)⟩

/-! ## C10: `ExtCategory.set_location` (src/occi/core.py lines 204-216) -/

/-- `Category.CategoryError` subclasses (`Invalid`, `DoesNotExist`), plus a
fuel marker for the registry recursion depth. -/
inductive CatErr where
  | invalid (msg : String)
  | doesNotExist (msg : String)
  | fuelOut
deriving DecidableEq

/-- The body of the `location` property setter: a falsy value becomes
`None`, a value not ending in a slash raises `Category.Invalid`, otherwise
leading slashes are stripped (and a value made empty by stripping becomes
`None` as well). -/
def pySetLocationCore (input : Option String) : Except CatErr (Option String) :=
  match input with
  | none => .ok none
  | some s =>
    if s = "" then .ok none
    else if s.toList.getLast? ≠ some '/' then
      .error (.invalid (s ++ ": invalid location path, must end with '/'"))
    else if (s.toList.dropWhile fun c => c = '/').isEmpty then .ok none
    else .ok (some (String.mk (s.toList.dropWhile fun c => c = '/')))

/-- Assignment through the `location` property: when the setter raises, the
stored `_location` keeps its previous value. -/
def applySetLocation (cur input : Option String) : Option CatErr × Option String :=
  match pySetLocationCore input with
  | .ok newLoc => (none, newLoc)
  | .error e => (some e, cur)

theorem dropWhile_head_not (p : Char → Bool) (l : List Char) :
    ∀ c, (l.dropWhile p).head? = some c → p c = false := by
  induction l with
  | nil => intro c h; simp [List.dropWhile] at h
  | cons x xs ih =>
    intro c h
    rw [List.dropWhile] at h
    rcases hp : p x with _ | _
    · rw [hp] at h
      simp only [List.head?_cons, Option.some.injEq] at h
      rw [← h]
      exact hp
    · rw [hp] at h
      exact ih c h

theorem getLast?_cons_of_ne_nil {c : Char} {cs : List Char} (h : cs ≠ []) :
    (c :: cs).getLast? = cs.getLast? := by
  rcases cs with _ | ⟨c2, cs2⟩
  · exact absurd rfl h
  · exact List.getLast?_cons_cons

theorem getLast?_dropWhile (p : Char → Bool) (l : List Char)
    (h : l.dropWhile p ≠ []) : (l.dropWhile p).getLast? = l.getLast? := by
  induction l with
  | nil => simp [List.dropWhile] at h
  | cons x xs ih =>
    rw [List.dropWhile] at h ⊢
    rcases hp : p x with _ | _
    · exact rfl
    · try rw [hp] at h
      try rw [hp]
      have hxs : xs.dropWhile p ≠ [] := h
      have hxs2 : xs ≠ [] := by
        intro he
        rw [he] at hxs
        simp [List.dropWhile] at hxs
      show (xs.dropWhile p).getLast? = (x :: xs).getLast?
      rw [ih hxs, getLast?_cons_of_ne_nil hxs2]

/-- The well-formedness of a stored location value. -/
def GoodLoc : Option String → Prop
  | none => True
  | some c => c.toList ≠ [] ∧ c.toList.getLast? = some '/' ∧ c.toList.head? ≠ some '/'

/-- C10: the `location` property is always `None` or a non-empty string
ending in `/` and not starting with `/`: falsy assignments store `None`, a
non-empty value not ending in `/` raises `Category.Invalid` leaving the
location unchanged, and otherwise leading slashes are stripped before
storing. -/
theorem C10_set_location_invariant :
    (∀ cur, applySetLocation cur none = (none, none) ∧
      applySetLocation cur (some "") = (none, none)) ∧
    (∀ cur s, s ≠ "" → s.toList.getLast? ≠ some '/' →
      ∃ msg, applySetLocation cur (some s) = (some (.invalid msg), cur)) ∧
    (∀ cur input err newLoc, applySetLocation cur input = (err, newLoc) →
      GoodLoc cur → GoodLoc newLoc) ∧
    (∀ cur s, s ≠ "" → s.toList.getLast? = some '/' →
      applySetLocation cur (some s) =
        (none, if (s.toList.dropWhile fun c => c = '/').isEmpty then none
               else some (String.mk (s.toList.dropWhile fun c => c = '/')))) := by
  refine ⟨?_, ?_, ?_, ?_⟩
  · intro cur
    constructor
    · rfl
    · rw [applySetLocation, pySetLocationCore]
      simp
  · intro cur s hs hlast
    refine ⟨s ++ ": invalid location path, must end with '/'", ?_⟩
    rw [applySetLocation, pySetLocationCore]
    rw [if_neg hs, if_pos hlast]
  · intro cur input err newLoc happ hcur
    rcases input with _ | s
    · rw [applySetLocation, pySetLocationCore] at happ
      have h2 : ((none : Option CatErr), (none : Option String)) = (err, newLoc) := happ
      have h2b : (none : Option String) = newLoc := congrArg Prod.snd h2
      rw [← h2b]
      trivial
    · rw [applySetLocation, pySetLocationCore] at happ
      by_cases hs : s = ""
      · rw [if_pos hs] at happ
        have h2 : ((none : Option CatErr), (none : Option String)) = (err, newLoc) := happ
        have h2b : (none : Option String) = newLoc := congrArg Prod.snd h2
        rw [← h2b]
        trivial
      · rw [if_neg hs] at happ
        by_cases hlast : s.toList.getLast? ≠ some '/'
        · rw [if_pos hlast] at happ
          have h2 : (some (CatErr.invalid (s ++ ": invalid location path, must end with '/'")),
              cur) = (err, newLoc) := happ
          have h2b : cur = newLoc := congrArg Prod.snd h2
          rw [← h2b]
          exact hcur
        · rw [if_neg hlast] at happ
          by_cases hemp : (s.toList.dropWhile fun c => c = '/').isEmpty = true
          · rw [if_pos hemp] at happ
            have h2 : ((none : Option CatErr), (none : Option String)) = (err, newLoc) := happ
            have h2b : (none : Option String) = newLoc := congrArg Prod.snd h2
            rw [← h2b]
            trivial
          · rw [if_neg hemp] at happ
            have h2 : ((none : Option CatErr),
                some (String.mk (s.toList.dropWhile fun c => c = '/'))) = (err, newLoc) := happ
            have h2b : some (String.mk (s.toList.dropWhile fun c => c = '/')) = newLoc :=
              congrArg Prod.snd h2
            rw [← h2b]
            have hne : (s.toList.dropWhile fun c => c = '/') ≠ [] := by
              intro he
              rw [he] at hemp
              exact hemp rfl
            refine ⟨?_, ?_, ?_⟩
            · show (String.mk (s.toList.dropWhile fun c => c = '/')).toList ≠ []
              exact hne
            · show (String.mk (s.toList.dropWhile fun c => c = '/')).toList.getLast? = some '/'
              show (s.toList.dropWhile fun c => c = '/').getLast? = some '/'
              rw [getLast?_dropWhile _ _ hne]
              exact not_not.mp hlast
            · show (String.mk (s.toList.dropWhile fun c => c = '/')).toList.head? ≠ some '/'
              show (s.toList.dropWhile fun c => c = '/').head? ≠ some '/'
              intro hh
              have := dropWhile_head_not (fun c => c = '/') s.toList '/' hh
              simp at this
  · intro cur s hs hlast
    rw [applySetLocation, pySetLocationCore, if_neg hs, if_neg (by simpa using hlast)]
    by_cases hemp : (s.toList.dropWhile fun c => c = '/').isEmpty = true
    · rw [if_pos hemp, if_pos hemp]
    · rw [if_neg hemp, if_neg hemp]

/-- Witness for C10: rejecting `api`, stripping `//api/`. -/
theorem C10_set_location_invariant_witness :
    (∃ msg, applySetLocation (some "base/") (some "api")
      = (some (.invalid msg), some "base/")) ∧
    applySetLocation none (some "//api/") = (none, some "api/") := by
  constructor
  · exact C10_set_location_invariant.2.1 (some "base/") "api" (by decide) (by decide)
  · have h := C10_set_location_invariant.2.2.2 none "//api/" (by decide) (by decide)
    rw [h]
    rfl

/-! ## CategoryRegistry (src/occi/core.py lines 107-195)

`register` and `unregister` recurse through a category's declared Actions;
the embedding makes the recursion depth explicit with a fuel parameter
(kept structural so the kernel can evaluate it). Fuel exhaustion is the
distinguished `CatErr.fuelOut`; every theorem supplies enough fuel for it
never to be reached. Errors carry the registry state as mutated before the
raise, matching the Python exception semantics. -/

structure CategoryRegistry where
  categories : List (String × Category)
  locations : List (String × Category)

/-- Truthiness of `hasattr(c, 'location') and c.location`. -/
def catLocTruthy (c : Category) : Bool := isExt c && (c.location.getD "") != ""

/-- The mutually recursive entry points of the registry code: `register`
(split into its replace step and the rest of the body), `unregister` and
the two action-list loops. -/
inductive RegCall where
  | reg (c : Category)
  | reg2 (c : Category)
  | unreg (c : Category)
  | regActs (acts : List Category)
  | unregActs (acts : List Category)

/-- `CategoryRegistry.register` / `CategoryRegistry.unregister` with their
recursion through declared Actions. -/
def regOpFuel : Nat → RegCall → CategoryRegistry →
    Except (CatErr × CategoryRegistry) CategoryRegistry
  | 0, _, r => .error (.fuelOut, r)
  | fuel + 1, .reg c, r =>
    if (alookup (catId c) r.categories).isSome then
      match regOpFuel fuel (.unreg c) r with
      | .error e => .error e
      | .ok r1 => regOpFuel fuel (.reg2 c) r1
    else regOpFuel fuel (.reg2 c) r
  | fuel + 1, .reg2 c, r1 =>
    if catLocTruthy c && (alookup (c.location.getD "") r1.locations).isSome then
      .error (.invalid ((c.location.getD "") ++ ": location path already defined"), r1)
    else
      let r2 := if catLocTruthy c
        then { r1 with locations := ainsert (c.location.getD "") c r1.locations } else r1
      let r3 := { r2 with categories := ainsert (catId c) c r2.categories }
      if isExt c then regOpFuel fuel (.regActs c.actions) r3 else .ok r3
  | fuel + 1, .unreg c, r =>
    match alookup (catId c) r.categories with
    | none => .error (.invalid (catId c ++ ": Category not registered"), r)
    | some stored =>
      let r1 := { r with categories := aerase (catId c) r.categories }
      let r2 := if catLocTruthy stored
        then { r1 with locations := aerase (stored.location.getD "") r1.locations } else r1
      if isExt stored then regOpFuel fuel (.unregActs stored.actions) r2 else .ok r2
  | fuel + 1, .regActs acts, r =>
    match acts with
    | [] => .ok r
    | a :: rest =>
      if isExt a then
        .error (.invalid (catId a ++
          ": Only the base Category type allowed to identify Actions"), r)
      else
        match regOpFuel fuel (.reg a) r with
        | .error e => .error e
        | .ok r1 => regOpFuel fuel (.regActs rest) r1
  | fuel + 1, .unregActs acts, r =>
    match acts with
    | [] => .ok r
    | a :: rest =>
      match regOpFuel fuel (.unreg a) r with
      | .error e => .error e
      | .ok r1 => regOpFuel fuel (.unregActs rest) r1

/-- Run a registration, keeping the mutated state when the call raises
(used to build the initial registry faithfully). -/
def regOrKeep (r : CategoryRegistry) (c : Category) : CategoryRegistry :=
  match regOpFuel 8 (.reg c) r with
  | .ok r1 => r1
  | .error (_, r1) => r1

/-- `CategoryRegistry.__init__`: the OCCI Core types are pre-registered. -/
def initRegistry : CategoryRegistry :=
  regOrKeep (regOrKeep (regOrKeep ⟨[], []⟩ entityKind) resourceKind) linkKind

/-! ## C4: registering a second category at an owned location fails -/

/-- C4: when the second category has a distinct identifier not currently
registered, declares the location owned by the first, then `register`
raises `Category.Invalid` and leaves the registry untouched: the second
category is not added and does not own the location. -/
theorem C4_register_location_collision (fuel : Nat) (r : CategoryRegistry)
    (fstC sndC : Category) (loc : String)
    (hreg : alookup (catId fstC) r.categories = some fstC)
    (hown : alookup loc r.locations = some fstC)
    (hnotyet : alookup (catId sndC) r.categories = none)
    (hsnd : sndC.location = some loc) (hext : isExt sndC = true) (hloc : loc ≠ "")
    (hid : catId fstC ≠ catId sndC) :
    regOpFuel (fuel + 2) (.reg sndC) r
        = .error (.invalid (loc ++ ": location path already defined"), r) ∧
    alookup (catId sndC) r.categories = none ∧
    alookup loc r.locations = some fstC := by
  refine ⟨?_, hnotyet, hown⟩
  rw [show fuel + 2 = (fuel + 1) + 1 from rfl, regOpFuel]
  rw [if_neg (by rw [hnotyet]; simp)]
  rw [regOpFuel]
  have hgetd : sndC.location.getD "" = loc := by rw [hsnd]; rfl
  have htr : catLocTruthy sndC = true := by
    rw [catLocTruthy, hext, hgetd]
    simpa using hloc
  rw [show (catLocTruthy sndC
      && (alookup (sndC.location.getD "") r.locations).isSome) = true by
    rw [htr, hgetd, hown]; rfl]
  rw [if_pos rfl, hgetd]

/-- Witness for C4: a second kind claiming the `compute/` location owned by
a first kind. -/
def computeKindA : Category :=
  .mk "compute" "http://schemas.ogf.org/occi/infrastructure#" CatClass.kind none
    [catId entityKind] [titleAttr] (some "compute/") []

/-- A Kind with a different identifier but the same `compute/` location. -/
def fooKindSameLoc : Category :=
  .mk "foo" "http://example.com/occi#" CatClass.kind none
    [catId entityKind] [] (some "compute/") []

/-- The registry that already holds `computeKindA` and its location. -/
def regWithCompute : CategoryRegistry := regOrKeep initRegistry computeKindA

theorem C4_register_location_collision_witness :
    regOpFuel 9 (.reg fooKindSameLoc) regWithCompute
        = .error (.invalid ("compute/" ++ ": location path already defined"), regWithCompute) ∧
    alookup (catId fooKindSameLoc) regWithCompute.categories = none ∧
    alookup "compute/" regWithCompute.locations = some computeKindA :=
  C4_register_location_collision 7 regWithCompute computeKindA fooKindSameLoc "compute/"
    (by rfl) (by rfl) (by rfl) (by rfl) (by rfl) (by decide) (by decide)

/-! ## C5: `CategoryRegistry.unregister` -/

/-- A plain category never registered anywhere. -/
def fooCat : Category :=
  .mk "foo" "http://example.com/occi#" CatClass.plain none [] [] none []

/-- Counterexample to C5 as stated: unregistering a category that is not
present raises `Category.Invalid` (message `Category not registered`), not
`Category.DoesNotExist`. -/
theorem C5_unregister_counterexample :
    regOpFuel 8 (.unreg fooCat) initRegistry
      = .error (.invalid ("http://example.com/occi#foo: Category not registered"),
          initRegistry) := by
  rfl

theorem regOpFuel_unreg_step (fuel : Nat) (c : Category) (r : CategoryRegistry)
    (stored : Category) (hlook : alookup (catId c) r.categories = some stored) :
    regOpFuel (fuel + 1) (.unreg c) r =
      (if isExt stored then
        regOpFuel fuel (.unregActs stored.actions)
          (if catLocTruthy stored
           then { categories := aerase (catId c) r.categories,
                  locations := aerase (stored.location.getD "") r.locations }
           else { categories := aerase (catId c) r.categories, locations := r.locations })
       else .ok (if catLocTruthy stored
           then { categories := aerase (catId c) r.categories,
                  locations := aerase (stored.location.getD "") r.locations }
           else { categories := aerase (catId c) r.categories, locations := r.locations })) := by
  rw [regOpFuel, hlook]

theorem unregActs_plain (acts : List Category) : ∀ fuel (r : CategoryRegistry),
    (∀ a ∈ acts, ∃ entry, alookup (catId a) r.categories = some entry ∧ isExt entry = false) →
    ((acts.map catId).Nodup) →
    2 * acts.length + 1 ≤ fuel →
    ∃ r2, regOpFuel fuel (.unregActs acts) r = .ok r2 ∧
      (∀ k, alookup k r2.categories
          = if k ∈ acts.map catId then none else alookup k r.categories) ∧
      r2.locations = r.locations := by
  induction acts with
  | nil =>
    intro fuel r _ _ hfuel
    rcases fuel with _ | f
    · omega
    · exact ⟨r, rfl, by intro k; simp, rfl⟩
  | cons a rest ih =>
    intro fuel r hent hnd hfuel
    simp only [List.length_cons] at hfuel
    rcases fuel with _ | f
    · omega
    · rcases f with _ | f2
      · omega
      · obtain ⟨entry, hlook, hplain⟩ := hent a (List.mem_cons_self _ _)
        have hct : catLocTruthy entry = false := by
          rw [catLocTruthy, hplain]
          rfl
        have hun : regOpFuel (f2 + 1) (.unreg a) r
            = .ok { categories := aerase (catId a) r.categories, locations := r.locations } := by
          rw [regOpFuel_unreg_step f2 a r entry hlook, hplain, hct]
          exact rfl
        rw [regOpFuel, hun]
        have hrestnd : (rest.map catId).Nodup := by
          simpa using hnd.of_cons
        have hanot : catId a ∉ rest.map catId := by
          have := hnd
          simp only [List.map_cons, List.nodup_cons] at this
          exact this.1
        obtain ⟨r2, hrec, hchar, hlocs⟩ := ih (f2 + 1)
          { categories := aerase (catId a) r.categories, locations := r.locations }
          (by
            intro b hb
            obtain ⟨entryb, hlb, hpb⟩ := hent b (List.mem_cons_of_mem _ hb)
            have hba : catId a ≠ catId b := by
              intro he
              rw [he] at hanot
              exact hanot (List.mem_map.mpr ⟨b, hb, rfl⟩)
            exact ⟨entryb, by rwa [alookup_aerase_ne _ _ _ hba], hpb⟩)
          hrestnd (by omega)
        refine ⟨r2, hrec, ?_, hlocs⟩
        intro k
        rw [hchar k]
        by_cases hk : k ∈ rest.map catId
        · rw [if_pos hk, if_pos (by simp [hk])]
        · rw [if_neg hk]
          by_cases hka : catId a = k
          · rw [if_pos (by simp [← hka]), ← hka, alookup_aerase_self]
          · rw [if_neg (by simp [hk]; exact fun he => hka he.symm),
              alookup_aerase_ne _ _ _ hka]

/-- C5 amended: `unregister(c)` on a registered category removes it, frees
its location and recursively unregisters each of its declared Actions; on a
category that is not present it fails with `Category.Invalid` (message
`Category not registered`), not `Category.DoesNotExist`. -/
theorem C5_unregister_amended (fuel : Nat) (r : CategoryRegistry) (c stored : Category)
    (hlook : alookup (catId c) r.categories = some stored)
    (hext : isExt stored = true)
    (hacts : ∀ a ∈ stored.actions, ∃ entry,
      alookup (catId a) r.categories = some entry ∧ isExt entry = false ∧ catId a ≠ catId c)
    (hnd : (stored.actions.map catId).Nodup)
    (hfuel : 2 * stored.actions.length + 2 ≤ fuel) :
    (∃ r2, regOpFuel fuel (.unreg c) r = .ok r2 ∧
      alookup (catId c) r2.categories = none ∧
      (∀ a ∈ stored.actions, alookup (catId a) r2.categories = none) ∧
      (catLocTruthy stored = true →
        alookup (stored.location.getD "") r2.locations = none)) ∧
    (∀ (r3 : CategoryRegistry) (c3 : Category), alookup (catId c3) r3.categories = none →
      regOpFuel fuel (.unreg c3) r3
        = .error (.invalid (catId c3 ++ ": Category not registered"), r3)) := by
  rcases fuel with _ | f
  · omega
  · constructor
    · rw [regOpFuel_unreg_step f c r stored hlook, if_pos hext]
      have haux : ∀ rmid : CategoryRegistry,
          rmid.categories = aerase (catId c) r.categories →
          ∃ r2, regOpFuel f (.unregActs stored.actions) rmid = .ok r2 ∧
            alookup (catId c) r2.categories = none ∧
            (∀ a ∈ stored.actions, alookup (catId a) r2.categories = none) ∧
            r2.locations = rmid.locations := by
        intro rmid hmid
        obtain ⟨r2, hrec, hchar, hlocs⟩ := unregActs_plain stored.actions f rmid
          (by
            intro a ha
            obtain ⟨entry, hla, hpa, hne⟩ := hacts a ha
            exact ⟨entry, by rw [hmid]; rwa [alookup_aerase_ne _ _ _ (Ne.symm hne)], hpa⟩)
          hnd (by omega)
        refine ⟨r2, hrec, ?_, ?_, hlocs⟩
        · rw [hchar (catId c)]
          by_cases hin : catId c ∈ stored.actions.map catId
          · rw [if_pos hin]
          · rw [if_neg hin, hmid, alookup_aerase_self]
        · intro a ha
          rw [hchar (catId a), if_pos (List.mem_map.mpr ⟨a, ha, rfl⟩)]
      by_cases hct : catLocTruthy stored = true
      · rw [if_pos hct]
        obtain ⟨r2, hrec, hnone, hactsnone, hlocs⟩ := haux
          { categories := aerase (catId c) r.categories,
            locations := aerase (stored.location.getD "") r.locations } rfl
        refine ⟨r2, hrec, hnone, hactsnone, fun _ => ?_⟩
        rw [hlocs]
        exact alookup_aerase_self _ _
      · rw [if_neg hct]
        obtain ⟨r2, hrec, hnone, hactsnone, hlocs⟩ := haux
          { categories := aerase (catId c) r.categories, locations := r.locations } rfl
        exact ⟨r2, hrec, hnone, hactsnone, fun hcontra => absurd hcontra hct⟩
    · intro r3 c3 hnone
      rw [regOpFuel, hnone]

/-- Witness for the amended C5: unregistering the registered `compute` Kind
succeeds and clears its identifier and `compute/` location; unregistering
an unknown category raises `Category.Invalid`. -/
theorem C5_unregister_amended_witness :
    (∃ r2, regOpFuel 2 (.unreg computeKindA) regWithCompute = .ok r2 ∧
      alookup (catId computeKindA) r2.categories = none ∧
      (∀ a ∈ computeKindA.actions, alookup (catId a) r2.categories = none) ∧
      (catLocTruthy computeKindA = true →
        alookup (computeKindA.location.getD "") r2.locations = none)) ∧
    regOpFuel 2 (.unreg fooCat) initRegistry
      = .error (.invalid (catId fooCat ++ ": Category not registered"), initRegistry) := by
  have h := C5_unregister_amended 2 regWithCompute computeKindA computeKindA
    (by rfl) (by rfl)
    (by intro a ha; exact absurd ha (List.not_mem_nil a))
    (by decide) (by decide)
  exact ⟨h.1, h.2 initRegistry fooCat (by rfl)⟩

/-! ## C7: `DummyBackend.filter_entities` (src/occi/server.py lines 163-187) -/

/-- A stored entity as the filter sees it: its id, the identifiers of its
categories and its attribute store (values already through `str`). -/
structure DbEntity where
  id : String
  catIds : List String
  attrs : List (String × String)
deriving DecidableEq

/-- Python `str(t)` where `t = entity.occi_get_attribute(name)` may be
`None`. -/
def strOfGet : Option String → String
  | none => "None"
  | some s => s

/-- `DummyBackend.filter_entities`: skip an entity unless it carries every
requested category; the attribute filter is applied only when both a
category filter and an attribute filter are supplied (the
`if categories and attributes:` guard). -/
def filterEntities (db : List DbEntity) (categories : List String)
    (attributes : List (String × String)) : List DbEntity :=
  db.filter fun e =>
    (categories.all fun c => e.catIds.contains c) &&
    (if !categories.isEmpty && !attributes.isEmpty then
      attributes.all fun p => strOfGet (alookup p.1 e.attrs) == p.2
     else true)

/-- The entity of the C7 failing input: one category, attribute `a = 1`. -/
def dbEntity1 : DbEntity := { id := "e1", catIds := ["k1"], attrs := [("a", "1")] }

/-- C7 evaluated at the failing input: with an attribute filter but no
category filter the attribute filter is ignored, so the non-matching
entity is returned; with a category filter alongside, the same attribute
filter correctly excludes it. -/
theorem C7_filter_entities_attribute_only_ignored :
    filterEntities [dbEntity1] [] [("a", "2")] = [dbEntity1] ∧
    filterEntities [dbEntity1] ["k1"] [("a", "2")] = [] ∧
    filterEntities [dbEntity1] ["k1"] [("a", "1")] = [dbEntity1] := by
  refine ⟨?_, ?_, ?_⟩ <;> rfl

/-! ## C8: `Action.__init__` parameter validation (src/occi/core.py lines 282-315) -/

/-- `Action.ActionError` subclasses, the escaping `Attribute.Invalid`, and
the Python `AttributeError` raised where the source says
`raise self.DuplicateAttribute(param)`: the `Action` class defines no
`DuplicateAttribute` member, so evaluating `self.DuplicateAttribute`
itself raises `AttributeError` instead of an `ActionError`. -/
inductive ActionErr where
  | unknownParameter (p : String)
  | requiredParameter (p : String)
  | attrInvalid (name : String) (value : String)
  | pyAttributeError (msg : String)
deriving DecidableEq

/-- The parameter-dictionary phase of `Action.__init__`: a repeated
parameter name reaches `raise self.DuplicateAttribute(param)`, which
raises Python `AttributeError` because `Action` has no such attribute. -/
def buildParamDict (acc : List (String × String)) :
    List (String × String) → Except ActionErr (List (String × String))
  | [] => .ok acc
  | (k, v) :: rest =>
    if (alookup k acc).isSome then
      .error (.pyAttributeError "type object Action has no attribute DuplicateAttribute")
    else buildParamDict (acc ++ [(k, v)]) rest

/-- The per-attribute loop of `Action.__init__`: pop a supplied parameter
and convert it (no mutability tracking); after each attribute check the
required constraint against the parameters bound so far. -/
def actionParams : List Attribute → List (String × String) → List (String × PyVal) →
    Except ActionErr (List (String × String) × List (String × PyVal))
  | [], dict, params => .ok (dict, params)
  | a :: rest, dict, params =>
    match alookup a.name dict with
    | none =>
      if a.required && (alookup a.name params).isNone then
        .error (.requiredParameter a.name)
      else actionParams rest dict params
    | some v =>
      match attrFromString a v with
      | .error _ => .error (.attrInvalid a.name v)
      | .ok val => actionParams rest (aerase a.name dict) (ainsert a.name val params)

/-- `Action.__init__(category, parameters)`: dictionary phase, attribute
loop, then `UnknownParameter` on any left-over supplied parameter. -/
def actionInit (category : Category) (parameters : List (String × String)) :
    Except ActionErr (List (String × PyVal)) :=
  match buildParamDict [] parameters with
  | .error e => .error e
  | .ok dict =>
    match actionParams category.attributes dict [] with
    | .error e => .error e
    | .ok (dict2, params) =>
      match dict2 with
      | [] => .ok params
      | (k, _) :: _ => .error (.unknownParameter k)

/-- The `startAction` Category of the `Action` docstring: one required
parameter `example.com.bar`. -/
def startActionCat : Category :=
  .mk "start" "http://example.com/occi/foo/action#" CatClass.plain none []
    [⟨"example.com.bar", true, false, AttrType.str⟩] none []

/-- C8 evaluated on `startAction`: a repeated parameter name raises the
Python `AttributeError` (because `Action.DuplicateAttribute` does not
exist), not a duplicate-parameter `ActionError`; a missing required
parameter raises `RequiredParameter`; an undeclared parameter raises
`UnknownParameter`; a well-formed call binds the parameter. -/
theorem C8_action_parameter_validation :
    actionInit startActionCat [("example.com.bar", "a"), ("example.com.bar", "b")]
      = .error (.pyAttributeError "type object Action has no attribute DuplicateAttribute") ∧
    actionInit startActionCat [("example.com.unknown", "blah"), ("example.com.bar", "foobar")]
      = .error (.unknownParameter "example.com.unknown") ∧
    actionInit startActionCat [("example.com.unknown", "blah")]
      = .error (.requiredParameter "example.com.bar") ∧
    actionInit startActionCat [("example.com.bar", "foobar")]
      = .ok [("example.com.bar", PyVal.vStr "foobar")] := by
  refine ⟨?_, ?_, ?_, ?_⟩ <;> rfl

/-! ## C6: Accept-header ordering and renderer selection

`HttpAcceptHeaders.parse` yields the header entries in declaration order,
each a media type with its parameters; an `AcceptEntry` carries the media
type and the parsed `q` parameter when present.
`Parser._parse_accept_header` then iterates `h.all_sorted()` — a method
missing from the source tree — and appends each content type to
`accept_types`, which `get_renderer` (src/occi/http/renderer.py lines
42-82) matches first-wins against the registered renderer table. -/

structure AcceptEntry where
  ctype : String
  q : Option Rat
deriving DecidableEq

/-- Effective quality of an entry: the HTTP default quality is 1. -/
def effQ (e : AcceptEntry) : Rat := e.q.getD 1

/-- The order produced by the sort: strictly higher quality first, ties
broken by declaration index. -/
def AcceptLE (a b : Nat × AcceptEntry) : Prop :=
  effQ b.2 < effQ a.2 ∨ (effQ a.2 = effQ b.2 ∧ a.1 ≤ b.1)

instance instDecAcceptLE (a b : Nat × AcceptEntry) : Decidable (AcceptLE a b) := by
  unfold AcceptLE
  exact inferInstance

/-- Modelled from the spec: `HttpAcceptHeaders.all_sorted`, called by
`Parser._parse_accept_header` but missing from the source tree; per spec
§4.7 the preference list has the quality values "honored if present —
highest quality first, ties broken by declaration order". Insertion step
of the stable sort over declaration-indexed entries. -/
def insAccept (x : Nat × AcceptEntry) : List (Nat × AcceptEntry) → List (Nat × AcceptEntry)
  | [] => [x]
  | y :: ys => if AcceptLE x y then x :: y :: ys else y :: insAccept x ys

/-- Modelled from the spec: the stable sort of `all_sorted`. -/
def sortAccept : List (Nat × AcceptEntry) → List (Nat × AcceptEntry)
  | [] => []
  | x :: xs => insAccept x (sortAccept xs)

/-- Declaration indices of the parsed entries. -/
def enumFrom : Nat → List AcceptEntry → List (Nat × AcceptEntry)
  | _, [] => []
  | i, e :: es => (i, e) :: enumFrom (i + 1) es

/-- `Parser._parse_accept_header`: `accept_types` lists the content type of
each entry of `all_sorted()` in order. -/
def parseAcceptTypes (entries : List AcceptEntry) : List String :=
  (sortAccept (enumFrom 0 entries)).map fun p => p.2.ctype

/-- The renderer classes registered in src/occi/http/renderer.py. -/
inductive RendererKind where
  | headerR
  | textPlainR
  | textURIListR
  | textR
deriving DecidableEq

/-- Each class's `MEDIA_TYPE` (TextRenderer inherits `text/plain`). -/
def defaultMedia : RendererKind → String
  | .headerR => "text/occi"
  | .textPlainR => "text/plain"
  | .textURIListR => "text/uri-list"
  | .textR => "text/plain"

/-- The module-level `_renderers` table in registration order: pattern to
renderer class and media type; `None` is the default-parser key. -/
def renderersTable : List (Option String × (RendererKind × Option String)) :=
  [(none, (.textPlainR, none)),
   (some "text/occi", (.headerR, some "text/occi")),
   (some "text/plain", (.textPlainR, some "text/plain")),
   (some "text/uri-list", (.textURIListR, some "text/uri-list")),
   (some "text/*", (.textR, some "text/plain")),
   (some "*/*", (.textPlainR, some "text/plain"))]

/-- The first-match loop of `get_renderer`. -/
def findRen : List String → Option (RendererKind × Option String)
  | [] => none
  | t :: rest =>
    match alookup (some t) renderersTable with
    | some v => some v
    | none => findRen rest

/-- `get_renderer(accept_types)`: empty input selects the default entry;
otherwise the first accept type present in the table wins; no match raises
`RendererError`. The returned instance resolves its media type through
the class `MEDIA_TYPE` default. -/
def getRenderer (acceptTypes : List String) : Except String (RendererKind × String) :=
  if acceptTypes.isEmpty then
    match alookup (none : Option String) renderersTable with
    | some (rk, mt) => .ok (rk, mt.getD (defaultMedia rk))
    | none => .error "No renderer found for requested media types"
  else
    match findRen acceptTypes with
    | some (rk, mt) => .ok (rk, mt.getD (defaultMedia rk))
    | none => .error "No renderer found for requested media types"

theorem acceptLE_total (a b : Nat × AcceptEntry) (h : ¬ AcceptLE a b) : AcceptLE b a := by
  simp only [AcceptLE] at h ⊢
  push_neg at h
  rcases lt_or_ge (effQ a.2) (effQ b.2) with hlt | hge
  · exact Or.inl hlt
  · have heq : effQ a.2 = effQ b.2 := le_antisymm h.1 hge
    exact Or.inr ⟨heq.symm, le_of_lt (h.2 heq)⟩

theorem acceptLE_trans (a b c : Nat × AcceptEntry)
    (hab : AcceptLE a b) (hbc : AcceptLE b c) : AcceptLE a c := by
  simp only [AcceptLE] at hab hbc ⊢
  rcases hab with h1 | ⟨h1, h2⟩ <;> rcases hbc with h3 | ⟨h3, h4⟩
  · exact Or.inl (lt_trans h3 h1)
  · exact Or.inl (by rw [← h3]; exact h1)
  · exact Or.inl (by rw [h1]; exact h3)
  · exact Or.inr ⟨h1.trans h3, le_trans h2 h4⟩

theorem insAccept_perm (x : Nat × AcceptEntry) (l : List (Nat × AcceptEntry)) :
    (insAccept x l).Perm (x :: l) := by
  induction l with
  | nil => rfl
  | cons y ys ih =>
    rw [insAccept]
    by_cases h : AcceptLE x y
    · rw [if_pos h]
    · rw [if_neg h]
      exact (ih.cons y).trans (List.Perm.swap x y ys)

theorem mem_insAccept {z x : Nat × AcceptEntry} {l : List (Nat × AcceptEntry)}
    (h : z ∈ insAccept x l) : z = x ∨ z ∈ l := by
  have := (insAccept_perm x l).mem_iff.mp h
  exact List.mem_cons.mp this

theorem pairwise_insAccept (x : Nat × AcceptEntry) :
    ∀ l, l.Pairwise AcceptLE → (insAccept x l).Pairwise AcceptLE := by
  intro l
  induction l with
  | nil =>
    intro _
    exact List.pairwise_singleton _ _
  | cons y ys ih =>
    intro hp
    have hp2 := List.pairwise_cons.mp hp
    rw [insAccept]
    by_cases h : AcceptLE x y
    · rw [if_pos h]
      refine List.Pairwise.cons ?_ hp
      intro z hz
      rcases List.mem_cons.mp hz with rfl | hz
      · exact h
      · exact acceptLE_trans x y z h (hp2.1 z hz)
    · rw [if_neg h]
      refine List.Pairwise.cons ?_ (ih hp2.2)
      intro z hz
      rcases mem_insAccept hz with hzx | hz
      · exact hzx ▸ acceptLE_total x y h
      · exact hp2.1 z hz

theorem sortAccept_perm : ∀ l, (sortAccept l).Perm l := by
  intro l
  induction l with
  | nil => rfl
  | cons x xs ih =>
    rw [sortAccept]
    exact (insAccept_perm x (sortAccept xs)).trans (ih.cons x)

theorem sortAccept_pairwise : ∀ l, (sortAccept l).Pairwise AcceptLE := by
  intro l
  induction l with
  | nil => exact List.Pairwise.nil
  | cons x xs ih =>
    rw [sortAccept]
    exact pairwise_insAccept x _ ih

theorem findRen_first : ∀ (pre : List String) (t : String) (post : List String)
    (v : RendererKind × Option String),
    (∀ p ∈ pre, alookup (some p) renderersTable = none) →
    alookup (some t) renderersTable = some v →
    findRen (pre ++ t :: post) = some v := by
  intro pre
  induction pre with
  | nil =>
    intro t post v _ ht
    rw [List.nil_append, findRen, ht]
  | cons p pre2 ih =>
    intro t post v hpre ht
    rw [List.cons_append, findRen, hpre p (List.mem_cons_self _ _)]
    exact ih t post v (fun p2 hp2 => hpre p2 (List.mem_cons_of_mem _ hp2)) ht

theorem findRen_none : ∀ ats : List String,
    (∀ t ∈ ats, alookup (some t) renderersTable = none) → findRen ats = none := by
  intro ats
  induction ats with
  | nil => intro _; rfl
  | cons t rest ih =>
    intro h
    rw [findRen, h t (List.mem_cons_self _ _)]
    exact ih (fun t2 ht2 => h t2 (List.mem_cons_of_mem _ ht2))

/-- C6: the accept list is the declaration-indexed entry list stably sorted
by descending quality (default quality 1; ties keep declaration order),
`accept_types` reads off the content types in that order, and
`get_renderer` returns the renderer registered for the first accept type
present in the table (`*/*` and `text/*` being ordinary table entries that
serve as fallbacks), raising `RendererError` when no entry matches. -/
theorem C6_accept_order_and_renderer_choice :
    (∀ entries : List AcceptEntry,
      (sortAccept (enumFrom 0 entries)).Perm (enumFrom 0 entries) ∧
      (sortAccept (enumFrom 0 entries)).Pairwise AcceptLE ∧
      parseAcceptTypes entries = (sortAccept (enumFrom 0 entries)).map fun p => p.2.ctype) ∧
    (∀ entries : List AcceptEntry, (∀ e ∈ entries, ∀ qv, e.q = some qv → qv ≤ 1) →
      ∀ a ∈ entries, a.q = none → ∀ b ∈ entries, effQ b ≤ effQ a) ∧
    (∀ (ats pre post : List String) (t : String) (v : RendererKind × Option String),
      ats = pre ++ t :: post →
      (∀ p ∈ pre, alookup (some p) renderersTable = none) →
      alookup (some t) renderersTable = some v →
      getRenderer ats = .ok (v.1, v.2.getD (defaultMedia v.1))) ∧
    (∀ ats : List String, ats ≠ [] →
      (∀ t ∈ ats, alookup (some t) renderersTable = none) →
      getRenderer ats = .error "No renderer found for requested media types") ∧
    (getRenderer ["text/html", "*/*"] = .ok (.textPlainR, "text/plain") ∧
     getRenderer ["text/*"] = .ok (.textR, "text/plain") ∧
     getRenderer [] = .ok (.textPlainR, "text/plain")) := by
  refine ⟨?_, ?_, ?_, ?_, ?_, ?_, ?_⟩
  · intro entries
    exact ⟨sortAccept_perm _, sortAccept_pairwise _, rfl⟩
  · intro entries hq a ha hanone b hb
    rcases hbq : b.q with _ | qv
    · simp [effQ, hbq, hanone]
    · have hle := hq b hb qv hbq
      simp only [effQ, hbq, hanone, Option.getD_some, Option.getD_none]
      exact hle
  · intro ats pre post t v hats hpre ht
    subst hats
    have hne : (pre ++ t :: post).isEmpty = false := by
      rcases pre with _ | ⟨p, pre2⟩ <;> rfl
    rw [getRenderer, if_neg (by simp [hne]), findRen_first pre t post v hpre ht]
  · intro ats hne hnone
    have hemp : ats.isEmpty = false := by
      rcases ats with _ | ⟨t, rest⟩
      · exact absurd rfl hne
      · rfl
    rw [getRenderer, if_neg (by simp [hemp]), findRen_none ats hnone]
  · rfl
  · rfl
  · rfl

/-- Witness for C6: the quality bound, the first-match selection of the
`*/*` fallback and the no-match failure, at concrete inputs. -/
theorem C6_accept_order_and_renderer_choice_witness :
    (∀ b ∈ [AcceptEntry.mk "text/html" none, AcceptEntry.mk "application/xml" (some (9 / 10))],
      effQ b ≤ effQ (AcceptEntry.mk "text/html" none)) ∧
    getRenderer ["text/html", "*/*"] = .ok (.textPlainR, "text/plain") ∧
    getRenderer ["text/html", "image/png"]
      = .error "No renderer found for requested media types" := by
  refine ⟨?_, ?_, ?_⟩
  · exact C6_accept_order_and_renderer_choice.2.1
      [AcceptEntry.mk "text/html" none, AcceptEntry.mk "application/xml" (some (9 / 10))]
      (by intro e he qv hqv; fin_cases he <;> simp_all <;> linarith)
      (AcceptEntry.mk "text/html" none) (by simp) rfl
  · exact C6_accept_order_and_renderer_choice.2.2.1 ["text/html", "*/*"] ["text/html"] []
      "*/*" (RendererKind.textPlainR, some "text/plain") rfl
      (by intro p hp; simp at hp; rw [hp]; rfl) rfl
  · exact C6_accept_order_and_renderer_choice.2.2.2.1 ["text/html", "image/png"] (by simp)
      (by intro t ht; simp at ht; rcases ht with rfl | rfl <;> rfl)

end OcciPy
